import Mathlib

/-!
# Verification of the tidewatch NOAA data pipeline

A shallow embedding of the two Python scripts
`tools/data-pipeline/fetch_noaa_data.py` and
`tools/data-pipeline/build_database.py`, together with proofs of the
testable properties stated in the repository specification.

Strings are modelled as `List Char`; Python's ASCII case mapping
(`str.lower` / `str.capitalize` restricted to ASCII letters, which is all
the pipeline relies on) is modelled by explicit code-point arithmetic.
JSON objects are modelled as structures with `Option` fields (a `none`
field models an absent key); JSON numbers are modelled as rationals.
Network calls are modelled by oracles giving the outcome of each attempt.
-/

namespace Tidewatch

/-! ## Characters: Python's ASCII case mapping -/

/-- The apostrophe character (code 39). -/
def apos : Char := Char.ofNat 39

/-- The opening-parenthesis character. -/
def lparen : Char := '('

/-- The comma character. -/
def commaChar : Char := ','

/-- The space character. -/
def spaceChar : Char := ' '

/-- ASCII lower-casing of one character, as Python's `str.lower` acts on
ASCII letters. -/
def pyLowerChar (c : Char) : Char :=
  if 65 ≤ c.toNat ∧ c.toNat ≤ 90 then Char.ofNat (c.toNat + 32) else c

/-- ASCII upper-casing of one character. -/
def pyUpperChar (c : Char) : Char :=
  if 97 ≤ c.toNat ∧ c.toNat ≤ 122 then Char.ofNat (c.toNat - 32) else c

/-- Whitespace recognised by Python's `str.split()` / `str.isspace()`
(restricted to the ASCII range). -/
def isSpaceChar (c : Char) : Bool :=
  decide (c.toNat = 32 ∨ c.toNat = 9 ∨ c.toNat = 10 ∨ c.toNat = 13 ∨
    c.toNat = 11 ∨ c.toNat = 12)

theorem toNat_Char_ofNat_small {n : Nat} (h : n < 55296) :
    (Char.ofNat n).toNat = n := by
  have hv : n.isValidChar := Or.inl h
  rw [Char.ofNat, dif_pos hv]
  rfl

theorem char_eq_of_toNat_eq {c d : Char} (h : c.toNat = d.toNat) : c = d := by
  have hc := Char.ofNat_toNat c
  rw [h, Char.ofNat_toNat] at hc
  exact hc.symm

theorem toNat_pyLowerChar (c : Char) :
    (pyLowerChar c).toNat =
      if 65 ≤ c.toNat ∧ c.toNat ≤ 90 then c.toNat + 32 else c.toNat := by
  unfold pyLowerChar
  split
  · next h => exact toNat_Char_ofNat_small (by omega)
  · rfl

theorem toNat_pyUpperChar (c : Char) :
    (pyUpperChar c).toNat =
      if 97 ≤ c.toNat ∧ c.toNat ≤ 122 then c.toNat - 32 else c.toNat := by
  unfold pyUpperChar
  split
  · next h =>
    have := c.val.toNat_lt
    exact toNat_Char_ofNat_small (by omega)
  · rfl

/-- If `d` is not a lowercase ASCII letter, only `d` itself lower-cases
to `d`. -/
theorem pyLowerChar_eq_neutral {c d : Char}
    (hd : ¬ (97 ≤ d.toNat ∧ d.toNat ≤ 122)) (h : pyLowerChar c = d) :
    c = d := by
  apply char_eq_of_toNat_eq
  have h1 : (pyLowerChar c).toNat = d.toNat := by rw [h]
  rw [toNat_pyLowerChar] at h1
  split at h1 <;> omega

/-- If `d` is not an uppercase ASCII letter, only `d` itself upper-cases
to `d`. -/
theorem pyUpperChar_eq_neutral {c d : Char}
    (hd : ¬ (65 ≤ d.toNat ∧ d.toNat ≤ 90)) (h : pyUpperChar c = d) :
    c = d := by
  apply char_eq_of_toNat_eq
  have h1 : (pyUpperChar c).toNat = d.toNat := by rw [h]
  rw [toNat_pyUpperChar] at h1
  split at h1 <;> omega

theorem pyLowerChar_pyLowerChar (c : Char) :
    pyLowerChar (pyLowerChar c) = pyLowerChar c := by
  apply char_eq_of_toNat_eq
  rw [toNat_pyLowerChar (pyLowerChar c), toNat_pyLowerChar c]
  split_ifs <;> omega

theorem pyUpperChar_pyUpperChar (c : Char) :
    pyUpperChar (pyUpperChar c) = pyUpperChar c := by
  apply char_eq_of_toNat_eq
  rw [toNat_pyUpperChar (pyUpperChar c), toNat_pyUpperChar c]
  split_ifs <;> omega

theorem pyLowerChar_pyUpperChar (c : Char) :
    pyLowerChar (pyUpperChar c) = pyLowerChar c := by
  apply char_eq_of_toNat_eq
  rw [toNat_pyLowerChar (pyUpperChar c), toNat_pyLowerChar c, toNat_pyUpperChar c]
  split_ifs <;> omega

theorem isSpaceChar_pyLowerChar (c : Char) :
    isSpaceChar (pyLowerChar c) = isSpaceChar c := by
  unfold isSpaceChar
  rw [toNat_pyLowerChar c]
  by_cases h : 65 ≤ c.toNat ∧ c.toNat ≤ 90
  · rw [if_pos h]
    simp only [decide_eq_decide]
    omega
  · rw [if_neg h]

theorem isSpaceChar_pyUpperChar (c : Char) :
    isSpaceChar (pyUpperChar c) = isSpaceChar c := by
  unfold isSpaceChar
  rw [toNat_pyUpperChar c]
  by_cases h : 97 ≤ c.toNat ∧ c.toNat ≤ 122
  · rw [if_pos h]
    simp only [decide_eq_decide]
    omega
  · rw [if_neg h]

theorem pyLowerChar_apos : pyLowerChar apos = apos := by decide

theorem pyLowerChar_lparen : pyLowerChar lparen = lparen := by decide

theorem pyLowerChar_commaChar : pyLowerChar commaChar = commaChar := by decide

/-! ## Strings as char lists: Python string methods -/

/-- Python's `str.lower()` (ASCII range). -/
def pyLower (l : List Char) : List Char := l.map pyLowerChar

/-- Python's `str.capitalize()`: first character upper-cased, the rest
lower-cased (ASCII range). -/
def pyCapitalize : List Char → List Char
  | [] => []
  | c :: t => pyUpperChar c :: t.map pyLowerChar

/-- No character of `l` is whitespace. -/
def noSpace (l : List Char) : Prop := ∀ c ∈ l, isSpaceChar c = false

theorem pyLower_pyLower (l : List Char) : pyLower (pyLower l) = pyLower l := by
  simp [pyLower, List.map_map, Function.comp_def, pyLowerChar_pyLowerChar]

theorem pyCapitalize_pyCapitalize (l : List Char) :
    pyCapitalize (pyCapitalize l) = pyCapitalize l := by
  cases l with
  | nil => rfl
  | cons c t =>
    simp [pyCapitalize, pyUpperChar_pyUpperChar, List.map_map,
      Function.comp_def, pyLowerChar_pyLowerChar]

theorem pyLower_pyCapitalize (l : List Char) :
    pyLower (pyCapitalize l) = pyLower l := by
  cases l with
  | nil => rfl
  | cons c t =>
    simp [pyCapitalize, pyLower, pyLowerChar_pyUpperChar, List.map_map,
      Function.comp_def, pyLowerChar_pyLowerChar]

theorem pyLower_eq_nil_iff {l : List Char} : pyLower l = [] ↔ l = [] := by
  simp [pyLower]

theorem pyCapitalize_eq_nil_iff {l : List Char} : pyCapitalize l = [] ↔ l = [] := by
  cases l <;> simp [pyCapitalize]

theorem mem_pyLower_neutral {d : Char} {l : List Char}
    (hd : ¬ (97 ≤ d.toNat ∧ d.toNat ≤ 122)) (h : d ∈ pyLower l) : d ∈ l := by
  obtain ⟨c, hc, hcd⟩ := List.mem_map.mp h
  rwa [← pyLowerChar_eq_neutral hd hcd]

theorem mem_pyCapitalize_neutral {d : Char} {l : List Char}
    (hdl : ¬ (97 ≤ d.toNat ∧ d.toNat ≤ 122))
    (hdu : ¬ (65 ≤ d.toNat ∧ d.toNat ≤ 90))
    (h : d ∈ pyCapitalize l) : d ∈ l := by
  cases l with
  | nil => simp [pyCapitalize] at h
  | cons c t =>
    simp only [pyCapitalize, List.mem_cons] at h ⊢
    rcases h with h | h
    · exact Or.inl ((pyUpperChar_eq_neutral hdu h.symm).symm)
    · obtain ⟨x, hx, hxd⟩ := List.mem_map.mp h
      exact Or.inr (by rwa [← pyLowerChar_eq_neutral hdl hxd])

theorem head?_pyLower_neutral {d : Char} {l : List Char}
    (hd : ¬ (97 ≤ d.toNat ∧ d.toNat ≤ 122)) (h : (pyLower l).head? = some d) :
    l.head? = some d := by
  cases l with
  | nil => simp [pyLower] at h
  | cons c t =>
    simp only [pyLower, List.map_cons, List.head?_cons, Option.some.injEq] at h ⊢
    exact pyLowerChar_eq_neutral hd h

theorem head?_pyCapitalize_neutral {d : Char} {l : List Char}
    (hdu : ¬ (65 ≤ d.toNat ∧ d.toNat ≤ 90))
    (h : (pyCapitalize l).head? = some d) : l.head? = some d := by
  cases l with
  | nil => simp [pyCapitalize] at h
  | cons c t =>
    simp only [pyCapitalize, List.head?_cons, Option.some.injEq] at h ⊢
    exact pyUpperChar_eq_neutral hdu h

theorem getLast?_map_char (f : Char → Char) (l : List Char) :
    (l.map f).getLast? = l.getLast?.map f := by
  induction l with
  | nil => rfl
  | cons c t ih =>
    cases t with
    | nil => rfl
    | cons e t' =>
      simp only [List.map_cons, List.getLast?_cons_cons] at ih ⊢
      exact ih

theorem getLast?_pyLower_neutral {d : Char} {l : List Char}
    (hd : ¬ (97 ≤ d.toNat ∧ d.toNat ≤ 122)) (h : (pyLower l).getLast? = some d) :
    l.getLast? = some d := by
  rw [pyLower, getLast?_map_char] at h
  cases hl : l.getLast? with
  | none => rw [hl] at h; simp at h
  | some c =>
    rw [hl] at h
    simp only [Option.map_some', Option.some.injEq] at h
    exact congrArg some (pyLowerChar_eq_neutral hd h)

theorem getLast?_pyCapitalize_neutral {d : Char} {l : List Char}
    (hdl : ¬ (97 ≤ d.toNat ∧ d.toNat ≤ 122))
    (hdu : ¬ (65 ≤ d.toNat ∧ d.toNat ≤ 90))
    (h : (pyCapitalize l).getLast? = some d) : l.getLast? = some d := by
  cases l with
  | nil => simp [pyCapitalize] at h
  | cons c t =>
    cases t with
    | nil =>
      simp only [pyCapitalize, List.map_nil, List.getLast?_singleton,
        Option.some.injEq] at h ⊢
      exact pyUpperChar_eq_neutral hdu h
    | cons e t' =>
      simp only [pyCapitalize, List.map_cons, List.getLast?_cons_cons] at h ⊢
      have h' : (pyLower (e :: t')).getLast? = some d := by
        simpa [pyLower] using h
      exact getLast?_pyLower_neutral hdl h'

theorem noSpace_pyLower {l : List Char} (h : noSpace l) : noSpace (pyLower l) := by
  intro c hc
  obtain ⟨x, hx, hxc⟩ := List.mem_map.mp hc
  rw [← hxc, isSpaceChar_pyLowerChar]
  exact h x hx

theorem noSpace_pyCapitalize {l : List Char} (h : noSpace l) :
    noSpace (pyCapitalize l) := by
  cases l with
  | nil => intro c hc; simp [pyCapitalize] at hc
  | cons c t =>
    intro x hx
    simp only [pyCapitalize, List.mem_cons] at hx
    rcases hx with hx | hx
    · rw [hx, isSpaceChar_pyUpperChar]
      exact h c (List.mem_cons_self ..)
    · obtain ⟨y, hy, hyx⟩ := List.mem_map.mp hx
      rw [← hyx, isSpaceChar_pyLowerChar]
      exact h y (List.mem_cons_of_mem _ hy)

/-! ## Splitting and joining

`joinSep` models Python's `sep.join(parts)` for a one-character separator;
`splitApos` models `word.split("'")`; `pySplit` models `name.split()`
(split on runs of whitespace, no empty words). -/

def joinSep (sep : Char) : List (List Char) → List Char
  | [] => []
  | [p] => p
  | p :: q :: ps => p ++ sep :: joinSep sep (q :: ps)

def splitApos : List Char → List (List Char)
  | [] => [[]]
  | c :: rest =>
    if c = apos then [] :: splitApos rest
    else
      match splitApos rest with
      | [] => [[c]]
      | p :: ps => (c :: p) :: ps

def pySplitTok : List Char → List Char → List (List Char)
  | [], cur => if cur = [] then [] else [cur.reverse]
  | c :: rest, cur =>
    if isSpaceChar c then
      if cur = [] then pySplitTok rest [] else cur.reverse :: pySplitTok rest []
    else pySplitTok rest (c :: cur)

def pySplit (l : List Char) : List (List Char) := pySplitTok l []

theorem joinSep_nil (sep : Char) : joinSep sep [] = [] := rfl

theorem joinSep_single (sep : Char) (p : List Char) : joinSep sep [p] = p := rfl

theorem joinSep_cons_cons (sep : Char) (p q : List Char) (ps : List (List Char)) :
    joinSep sep (p :: q :: ps) = p ++ sep :: joinSep sep (q :: ps) := rfl

theorem joinSep_eq_nil_iff {sep : Char} {p : List Char} {ps : List (List Char)} :
    joinSep sep (p :: ps) = [] ↔ p = [] ∧ ps = [] := by
  cases ps with
  | nil => simp [joinSep_single]
  | cons q ps' => simp [joinSep_cons_cons]

theorem head?_joinSep_of_ne_nil {sep : Char} {p : List Char}
    (ps : List (List Char)) (hp : p ≠ []) :
    (joinSep sep (p :: ps)).head? = p.head? := by
  cases ps with
  | nil => rfl
  | cons q ps' =>
    rw [joinSep_cons_cons, List.head?_append]
    cases p with
    | nil => exact absurd rfl hp
    | cons c t => rfl

theorem head?_joinSep_nil_cons {sep : Char} (q : List Char) (ps : List (List Char)) :
    (joinSep sep ([] :: q :: ps)).head? = some sep := by
  rw [joinSep_cons_cons]
  rfl

theorem getLast?_joinSep_of_ne_nil {sep : Char} {p : List Char}
    (ps : List (List Char)) (hp : p ≠ []) :
    (joinSep sep (ps ++ [p])).getLast? = p.getLast? := by
  induction ps with
  | nil => rfl
  | cons x xs ih =>
    have hx : ∃ y ys, xs ++ [p] = y :: ys := by
      cases xs with
      | nil => exact ⟨p, [], rfl⟩
      | cons a as => exact ⟨a, as ++ [p], rfl⟩
    obtain ⟨y, ys, hys⟩ := hx
    rw [List.cons_append, hys, joinSep_cons_cons, ← hys, List.getLast?_append]
    cases hJ : joinSep sep (xs ++ [p]) with
    | nil =>
      rw [hJ] at ih
      simp only [List.getLast?_nil] at ih
      exact absurd (List.getLast?_eq_none_iff.mp ih.symm) hp
    | cons a as =>
      rw [hJ] at ih
      rw [List.getLast?_cons_cons, ih]
      cases hpl : p.getLast? with
      | none => exact absurd (List.getLast?_eq_none_iff.mp hpl) hp
      | some c => rfl

theorem getLast?_joinSep_nil_last {sep : Char} {ps : List (List Char)}
    (hps : ps ≠ []) :
    (joinSep sep (ps ++ [[]])).getLast? = some sep := by
  induction ps with
  | nil => exact absurd rfl hps
  | cons x xs ih =>
    cases xs with
    | nil => simp [joinSep_cons_cons, joinSep_single]
    | cons y ys =>
      have hys : (y :: ys) ++ [[]] = y :: (ys ++ [[]]) := rfl
      rw [List.cons_append, hys, joinSep_cons_cons, ← hys, List.getLast?_append]
      have ih' := ih (by simp)
      cases hJ : joinSep sep ((y :: ys) ++ [[]]) with
      | nil =>
        rw [hJ] at ih'
        simp at ih'
      | cons a as =>
        rw [hJ] at ih'
        rw [List.getLast?_cons_cons, ih']
        rfl

theorem sep_mem_joinSep {sep : Char} (p q : List Char) (ps : List (List Char)) :
    sep ∈ joinSep sep (p :: q :: ps) := by
  rw [joinSep_cons_cons]
  exact List.mem_append_right _ (List.mem_cons_self ..)

theorem mem_joinSep {sep : Char} {x : Char} :
    ∀ {parts : List (List Char)}, x ∈ joinSep sep parts →
      x = sep ∨ ∃ p ∈ parts, x ∈ p := by
  intro parts
  induction parts with
  | nil => intro h; simp [joinSep_nil] at h
  | cons p ps ih =>
    intro h
    cases ps with
    | nil =>
      rw [joinSep_single] at h
      exact Or.inr ⟨p, List.mem_cons_self .., h⟩
    | cons q ps' =>
      rw [joinSep_cons_cons] at h
      rcases List.mem_append.mp h with h | h
      · exact Or.inr ⟨p, List.mem_cons_self .., h⟩
      · rcases List.mem_cons.mp h with h | h
        · exact Or.inl h
        · rcases ih h with h | ⟨r, hr, hxr⟩
          · exact Or.inl h
          · exact Or.inr ⟨r, List.mem_cons_of_mem _ hr, hxr⟩

theorem splitApos_ne_nil : ∀ l : List Char, splitApos l ≠ [] := by
  intro l
  cases l with
  | nil => simp [splitApos]
  | cons c rest =>
    unfold splitApos
    split
    · simp
    · split <;> simp

theorem splitApos_cons_apos (rest : List Char) :
    splitApos (apos :: rest) = [] :: splitApos rest := by
  conv_lhs => unfold splitApos
  rw [if_pos rfl]

theorem splitApos_cons_ne {c : Char} (hc : c ≠ apos) {rest p : List Char}
    {ps : List (List Char)} (h : splitApos rest = p :: ps) :
    splitApos (c :: rest) = (c :: p) :: ps := by
  conv_lhs => unfold splitApos
  rw [if_neg hc, h]

theorem joinSep_splitApos : ∀ l : List Char, joinSep apos (splitApos l) = l := by
  intro l
  induction l with
  | nil => rfl
  | cons c rest ih =>
    by_cases hc : c = apos
    · subst hc
      rw [splitApos_cons_apos]
      obtain ⟨p, ps, hps⟩ : ∃ p ps, splitApos rest = p :: ps := by
        cases h : splitApos rest with
        | nil => exact absurd h (splitApos_ne_nil rest)
        | cons p ps => exact ⟨p, ps, rfl⟩
      rw [hps, joinSep_cons_cons]
      rw [hps] at ih
      simp [ih]
    · obtain ⟨p, ps, hps⟩ : ∃ p ps, splitApos rest = p :: ps := by
        cases h : splitApos rest with
        | nil => exact absurd h (splitApos_ne_nil rest)
        | cons p ps => exact ⟨p, ps, rfl⟩
      rw [splitApos_cons_ne hc hps]
      rw [hps] at ih
      cases ps with
      | nil =>
        rw [joinSep_single]
        rw [joinSep_single] at ih
        rw [ih]
      | cons q ps' =>
        rw [joinSep_cons_cons]
        rw [joinSep_cons_cons] at ih
        rw [List.cons_append, ih]

theorem apos_not_mem_of_mem_splitApos :
    ∀ {l : List Char} {p : List Char}, p ∈ splitApos l → apos ∉ p := by
  intro l
  induction l with
  | nil => intro p hp; simp [splitApos] at hp; simp [hp]
  | cons c rest ih =>
    intro p hp
    by_cases hc : c = apos
    · subst hc
      rw [splitApos_cons_apos] at hp
      rcases List.mem_cons.mp hp with h | h
      · simp [h]
      · exact ih h
    · obtain ⟨q, qs, hqs⟩ : ∃ q qs, splitApos rest = q :: qs := by
        cases h : splitApos rest with
        | nil => exact absurd h (splitApos_ne_nil rest)
        | cons q qs => exact ⟨q, qs, rfl⟩
      rw [splitApos_cons_ne hc hqs] at hp
      rcases List.mem_cons.mp hp with h | h
      · subst h
        intro hmem
        rcases List.mem_cons.mp hmem with h | h
        · exact hc h.symm
        · exact ih (hqs ▸ List.mem_cons_self ..) h
      · exact ih (hqs ▸ List.mem_cons_of_mem _ h)

theorem two_le_length_splitApos {l : List Char} (h : apos ∈ l) :
    2 ≤ (splitApos l).length := by
  induction l with
  | nil => simp at h
  | cons c rest ih =>
    by_cases hc : c = apos
    · subst hc
      rw [splitApos_cons_apos]
      have := splitApos_ne_nil rest
      cases hr : splitApos rest with
      | nil => exact absurd hr this
      | cons p ps => simp
    · obtain ⟨q, qs, hqs⟩ : ∃ q qs, splitApos rest = q :: qs := by
        cases hr : splitApos rest with
        | nil => exact absurd hr (splitApos_ne_nil rest)
        | cons q qs => exact ⟨q, qs, rfl⟩
      rw [splitApos_cons_ne hc hqs]
      have hrest : apos ∈ rest := by
        rcases List.mem_cons.mp h with h | h
        · exact absurd h.symm hc
        · exact h
      have := ih hrest
      rw [hqs] at this
      simpa using this

theorem splitApos_aposfree {p : List Char} (hp : apos ∉ p) :
    splitApos p = [p] := by
  induction p with
  | nil => rfl
  | cons c t ih =>
    have hc : c ≠ apos := fun h => hp (h ▸ List.mem_cons_self ..)
    have ht : apos ∉ t := fun h => hp (List.mem_cons_of_mem _ h)
    exact splitApos_cons_ne hc (ih ht)

theorem splitApos_append_apos {p : List Char} (hp : apos ∉ p) (l : List Char) :
    splitApos (p ++ apos :: l) = p :: splitApos l := by
  induction p with
  | nil => exact splitApos_cons_apos l
  | cons c t ih =>
    have hc : c ≠ apos := fun h => hp (h ▸ List.mem_cons_self ..)
    have ht : apos ∉ t := fun h => hp (List.mem_cons_of_mem _ h)
    exact splitApos_cons_ne hc (ih ht)

theorem splitApos_joinSep :
    ∀ {parts : List (List Char)}, parts ≠ [] → (∀ p ∈ parts, apos ∉ p) →
      splitApos (joinSep apos parts) = parts := by
  intro parts
  induction parts with
  | nil => intro h; exact absurd rfl h
  | cons p ps ih =>
    intro _ hfree
    cases ps with
    | nil =>
      rw [joinSep_single]
      exact splitApos_aposfree (hfree p (List.mem_cons_self ..))
    | cons q ps' =>
      rw [joinSep_cons_cons]
      rw [splitApos_append_apos (hfree p (List.mem_cons_self ..))]
      rw [ih (by simp) (fun r hr => hfree r (List.mem_cons_of_mem _ hr))]

theorem pySplitTok_ne_nil_of_cur :
    ∀ (l : List Char) {cur : List Char}, cur ≠ [] → pySplitTok l cur ≠ [] := by
  intro l
  induction l with
  | nil =>
    intro cur hcur
    unfold pySplitTok
    rw [if_neg hcur]
    simp
  | cons c rest ih =>
    intro cur hcur
    unfold pySplitTok
    by_cases hs : isSpaceChar c
    · rw [if_pos hs, if_neg hcur]
      simp
    · rw [if_neg hs]
      exact ih (by simp)

theorem pySplitTok_words :
    ∀ (l : List Char) {cur : List Char}, noSpace cur →
      ∀ w ∈ pySplitTok l cur, w ≠ [] ∧ noSpace w := by
  intro l
  induction l with
  | nil =>
    intro cur hcur w hw
    unfold pySplitTok at hw
    by_cases h : cur = []
    · rw [if_pos h] at hw
      simp at hw
    · rw [if_neg h] at hw
      rcases List.mem_singleton.mp hw with rfl
      refine ⟨by simpa using h, ?_⟩
      intro x hx
      exact hcur x (List.mem_reverse.mp hx)
  | cons c rest ih =>
    intro cur hcur w hw
    unfold pySplitTok at hw
    by_cases hs : isSpaceChar c
    · rw [if_pos hs] at hw
      by_cases h : cur = []
      · rw [if_pos h] at hw
        exact ih (by intro x hx; simp at hx) w hw
      · rw [if_neg h] at hw
        rcases List.mem_cons.mp hw with rfl | hw'
        · refine ⟨by simpa using h, ?_⟩
          intro x hx
          exact hcur x (List.mem_reverse.mp hx)
        · exact ih (by intro x hx; simp at hx) w hw'
    · rw [if_neg hs] at hw
      refine ih ?_ w hw
      intro x hx
      rcases List.mem_cons.mp hx with rfl | hx'
      · simpa using hs
      · exact hcur x hx'

theorem pySplitTok_append {w : List Char} (hw : noSpace w) :
    ∀ (l cur : List Char), pySplitTok (w ++ l) cur = pySplitTok l (w.reverse ++ cur) := by
  induction w with
  | nil => intro l cur; simp
  | cons c w' ih =>
    intro l cur
    have hc : isSpaceChar c = false := hw c (List.mem_cons_self ..)
    have hw' : noSpace w' := fun x hx => hw x (List.mem_cons_of_mem _ hx)
    rw [List.cons_append]
    conv_lhs => unfold pySplitTok
    rw [if_neg (by simp [hc])]
    rw [ih hw' l (c :: cur)]
    congr 1
    simp

theorem pySplitTok_space_cons (l : List Char) {cur : List Char} (hcur : cur ≠ []) :
    pySplitTok (spaceChar :: l) cur = cur.reverse :: pySplitTok l [] := by
  conv_lhs => unfold pySplitTok
  rw [if_pos (by decide), if_neg hcur]

theorem pySplit_joinSep :
    ∀ ws : List (List Char), (∀ w ∈ ws, w ≠ [] ∧ noSpace w) →
      pySplit (joinSep spaceChar ws) = ws := by
  intro ws
  induction ws with
  | nil => intro _; rfl
  | cons w ws' ih =>
    intro hws
    obtain ⟨hw, hwsp⟩ := hws w (List.mem_cons_self ..)
    cases ws' with
    | nil =>
      rw [joinSep_single]
      unfold pySplit
      have h := pySplitTok_append hwsp [] []
      simp only [List.append_nil] at h
      rw [h]
      unfold pySplitTok
      rw [if_neg (by simpa using hw)]
      simp
    | cons q ws'' =>
      rw [joinSep_cons_cons]
      unfold pySplit
      rw [pySplitTok_append hwsp _ []]
      simp only [List.append_nil]
      rw [pySplitTok_space_cons _ (by simpa using hw)]
      simp only [List.reverse_reverse]
      have := ih (fun x hx => hws x (List.mem_cons_of_mem _ hx))
      unfold pySplit at this
      rw [this]

theorem pySplitTok_ne_nil_of_nonspace :
    ∀ (l : List Char) (cur : List Char), (∃ c ∈ l, isSpaceChar c = false) →
      pySplitTok l cur ≠ [] := by
  intro l
  induction l with
  | nil => intro cur h; simp at h
  | cons c rest ih =>
    intro cur ⟨x, hx, hxs⟩
    unfold pySplitTok
    by_cases hs : isSpaceChar c
    · rw [if_pos hs]
      have hxr : x ∈ rest := by
        rcases List.mem_cons.mp hx with rfl | h
        · rw [hs] at hxs; exact absurd hxs (by simp)
        · exact h
      by_cases h : cur = []
      · rw [if_pos h]
        exact ih [] ⟨x, hxr, hxs⟩
      · rw [if_neg h]
        simp
    · rw [if_neg hs]
      exact pySplitTok_ne_nil_of_cur rest (by simp)

/-! ## The name normalizer (`build_database.normalize_station_name`) -/

/-- The minor words that stay lowercase (except at start or after an
opening parenthesis). -/
def minor_words : List (List Char) :=
  ["the".data, "of".data, "and".data, "at".data, "in".data, "on".data,
   "a".data, "an".data, "to".data]

/-- The helper `format_word` from `normalize_station_name`, with explicit fuel.
Every recursive call strips exactly one character (the leading `(` or the
trailing `,`), so fuel equal to the word length always suffices and the
fuel-exhausted case is unreachable; `format_word` below instantiates the
fuel that way. -/
def format_word_fuel : Nat → List Char → Bool → Bool → List Char
  | _, [], _, _ => []
  | 0, w, _, _ => w
  | fuel + 1, c :: rest, is_first, after_paren =>
    if c = lparen then
      if rest = [] then [c]
      else c :: format_word_fuel fuel rest true true
    else if apos ∈ c :: rest then
      joinSep apos ((splitApos (c :: rest)).map pyCapitalize)
    else if (c :: rest).getLast? = some commaChar then
      format_word_fuel fuel (c :: rest).dropLast is_first after_paren ++ [commaChar]
    else
      if is_first = false ∧ after_paren = false ∧ pyLower (c :: rest) ∈ minor_words
      then pyLower (c :: rest)
      else pyCapitalize (pyLower (c :: rest))

/-- The builder helper `format_word(word, is_first, after_paren)`. -/
def format_word (w : List Char) (is_first after_paren : Bool) : List Char :=
  format_word_fuel w.length w is_first after_paren

theorem format_word_nil (f p : Bool) : format_word [] f p = [] := rfl

theorem format_word_paren_single (f p : Bool) :
    format_word [lparen] f p = [lparen] := by
  unfold format_word
  simp only [List.length_cons, List.length_nil]
  simp only [format_word_fuel]
  simp

theorem format_word_paren {rest : List Char} (h : rest ≠ []) (f p : Bool) :
    format_word (lparen :: rest) f p = lparen :: format_word rest true true := by
  unfold format_word
  simp only [List.length_cons]
  simp only [format_word_fuel]
  simp [h]

theorem format_word_apos {c : Char} {rest : List Char} (hc : c ≠ lparen)
    (ha : apos ∈ c :: rest) (f p : Bool) :
    format_word (c :: rest) f p =
      joinSep apos ((splitApos (c :: rest)).map pyCapitalize) := by
  unfold format_word
  simp only [List.length_cons]
  simp only [format_word_fuel]
  rw [if_neg hc, if_pos ha]

theorem format_word_comma {c : Char} {rest : List Char} (hc : c ≠ lparen)
    (ha : apos ∉ c :: rest) (hl : (c :: rest).getLast? = some commaChar)
    (f p : Bool) :
    format_word (c :: rest) f p =
      format_word ((c :: rest).dropLast) f p ++ [commaChar] := by
  have hlen : ((c :: rest).dropLast).length = rest.length := by
    simp [List.length_dropLast]
  unfold format_word
  rw [hlen]
  simp only [List.length_cons]
  simp only [format_word_fuel]
  rw [if_neg hc, if_neg ha, if_pos hl]

theorem format_word_minor {c : Char} {rest : List Char} {f p : Bool}
    (hc : c ≠ lparen) (ha : apos ∉ c :: rest)
    (hl : (c :: rest).getLast? ≠ some commaChar)
    (hm : f = false ∧ p = false ∧ pyLower (c :: rest) ∈ minor_words) :
    format_word (c :: rest) f p = pyLower (c :: rest) := by
  unfold format_word
  simp only [List.length_cons]
  simp only [format_word_fuel]
  rw [if_neg hc, if_neg ha, if_neg hl, if_pos hm]

theorem format_word_cap {c : Char} {rest : List Char} {f p : Bool}
    (hc : c ≠ lparen) (ha : apos ∉ c :: rest)
    (hl : (c :: rest).getLast? ≠ some commaChar)
    (hm : ¬ (f = false ∧ p = false ∧ pyLower (c :: rest) ∈ minor_words)) :
    format_word (c :: rest) f p = pyCapitalize (pyLower (c :: rest)) := by
  unfold format_word
  simp only [List.length_cons]
  simp only [format_word_fuel]
  rw [if_neg hc, if_neg ha, if_neg hl, if_neg hm]

theorem mem_joinSep_of_mem {sep x : Char} :
    ∀ {parts : List (List Char)} {p : List Char}, p ∈ parts → x ∈ p →
      x ∈ joinSep sep parts := by
  intro parts
  induction parts with
  | nil => intro p hp; simp at hp
  | cons q qs ih =>
    intro p hp hx
    cases qs with
    | nil =>
      rcases List.mem_singleton.mp hp with rfl
      rwa [joinSep_single]
    | cons r rs =>
      rw [joinSep_cons_cons]
      rcases List.mem_cons.mp hp with rfl | hp'
      · exact List.mem_append_left _ hx
      · exact List.mem_append_right _ (List.mem_cons_of_mem _ (ih hp' hx))

/-- Structural facts preserved by `format_word`: the output of a nonempty
word is nonempty; a word not starting with `(` formats to a word not
starting with `(`; no apostrophe or whitespace is introduced; a word not
ending in `,` formats to a word not ending in `,`. -/
theorem format_word_facts :
    ∀ (n : Nat) (w : List Char), w.length ≤ n → ∀ (f p : Bool),
      (w ≠ [] → format_word w f p ≠ []) ∧
      (w.head? ≠ some lparen → (format_word w f p).head? ≠ some lparen) ∧
      (apos ∉ w → apos ∉ format_word w f p) ∧
      (w.getLast? ≠ some commaChar →
        (format_word w f p).getLast? ≠ some commaChar) ∧
      (noSpace w → noSpace (format_word w f p)) := by
  intro n
  induction n with
  | zero =>
    intro w hw f p
    have hwn : w = [] := List.length_eq_zero.mp (Nat.le_zero.mp hw)
    subst hwn
    rw [format_word_nil]
    exact ⟨fun h => absurd rfl h, fun h => h, fun h => h, fun h => h, fun h => h⟩
  | succ n ih =>
    intro w hw f p
    cases w with
    | nil =>
      rw [format_word_nil]
      exact ⟨fun h => absurd rfl h, fun h => h, fun h => h, fun h => h, fun h => h⟩
    | cons c rest =>
      by_cases hc : c = lparen
      · subst hc
        by_cases hr : rest = []
        · subst hr
          rw [format_word_paren_single]
          exact ⟨fun _ => by simp, fun h => h, fun h => h, fun h => h, fun h => h⟩
        · rw [format_word_paren hr]
          have hlen : rest.length ≤ n := by
            simp only [List.length_cons] at hw
            omega
          obtain ⟨ih1, ih2, ih3, ih4, ih5⟩ := ih rest hlen true true
          refine ⟨fun _ => by simp, ?_, ?_, ?_, ?_⟩
          · intro h
            exact absurd (show (lparen :: rest).head? = some lparen from rfl) h
          · intro h hmem
            rcases List.mem_cons.mp hmem with h1 | h1
            · exact absurd h1 (by decide)
            · exact ih3 (fun hm => h (List.mem_cons_of_mem _ hm)) h1
          · intro h
            have hrl : rest.getLast? ≠ some commaChar := by
              cases rest with
              | nil => exact absurd rfl hr
              | cons a as => rwa [List.getLast?_cons_cons] at h
            have hfw := ih1 hr
            cases hfw' : format_word rest true true with
            | nil => exact absurd hfw' hfw
            | cons a as =>
              rw [List.getLast?_cons_cons]
              rw [← hfw']
              exact ih4 hrl
          · intro h x hx
            rcases List.mem_cons.mp hx with rfl | hx'
            · decide
            · exact ih5 (fun y hy => h y (List.mem_cons_of_mem _ hy)) x hx'
      · by_cases ha : apos ∈ c :: rest
        · rw [format_word_apos hc ha]
          have hparts2 : 2 ≤ (splitApos (c :: rest)).length :=
            two_le_length_splitApos ha
          have hjoin : joinSep apos (splitApos (c :: rest)) = c :: rest :=
            joinSep_splitApos (c :: rest)
          obtain ⟨p0, q0, ps0, hps⟩ :
              ∃ p0 q0 ps0, splitApos (c :: rest) = p0 :: q0 :: ps0 := by
            cases h1 : splitApos (c :: rest) with
            | nil => rw [h1] at hparts2; simp at hparts2
            | cons p0 t =>
              cases t with
              | nil => rw [h1] at hparts2; simp at hparts2
              | cons q0 ps0 => exact ⟨p0, q0, ps0, rfl⟩
          refine ⟨?_, ?_, ?_, ?_, ?_⟩
          · intro _
            rw [hps, List.map_cons, List.map_cons]
            intro hnil
            rw [joinSep_eq_nil_iff] at hnil
            exact absurd hnil.2 (by simp)
          · intro _
            by_cases hca : c = apos
            · subst hca
              obtain ⟨pp, pps, hpp⟩ :
                  ∃ pp pps, splitApos rest = pp :: pps := by
                cases h1 : splitApos rest with
                | nil => exact absurd h1 (splitApos_ne_nil rest)
                | cons pp pps => exact ⟨pp, pps, rfl⟩
              rw [splitApos_cons_apos, hpp, List.map_cons, List.map_cons]
              rw [show pyCapitalize [] = [] from rfl, head?_joinSep_nil_cons]
              intro h1
              exact absurd (Option.some.inj h1) (by decide)
            · obtain ⟨pp, pps, hpp⟩ :
                  ∃ pp pps, splitApos rest = pp :: pps := by
                cases h1 : splitApos rest with
                | nil => exact absurd h1 (splitApos_ne_nil rest)
                | cons pp pps => exact ⟨pp, pps, rfl⟩
              have hsplit := splitApos_cons_ne hca hpp
              rw [hsplit, List.map_cons]
              have hcap : pyCapitalize (c :: pp) = pyUpperChar c :: pp.map pyLowerChar := rfl
              rw [head?_joinSep_of_ne_nil _ (by rw [hcap]; simp)]
              rw [hcap, List.head?_cons]
              intro h1
              exact hc (pyUpperChar_eq_neutral (by decide) (Option.some.inj h1))
          · intro h
            exact absurd ha h
          · intro hlast
            have hpartsne : splitApos (c :: rest) ≠ [] := splitApos_ne_nil _
            have hdecomp := List.dropLast_append_getLast hpartsne
            generalize hplg : (splitApos (c :: rest)).getLast hpartsne = pl at hdecomp
            generalize hdlg : (splitApos (c :: rest)).dropLast = dl at hdecomp
            rw [← hdecomp, List.map_append, List.map_cons, List.map_nil]
            have hdlne : dl ≠ [] := by
              intro h0
              subst h0
              rw [← hdecomp] at hparts2
              simp at hparts2
            by_cases hple : pl = []
            · subst hple
              rw [show pyCapitalize [] = [] from rfl]
              rw [getLast?_joinSep_nil_last (by simpa using hdlne)]
              intro h1
              exact absurd (Option.some.inj h1) (by decide)
            · rw [getLast?_joinSep_of_ne_nil _
                (fun h0 => hple (pyCapitalize_eq_nil_iff.mp h0))]
              intro h1
              have h2 := getLast?_pyCapitalize_neutral (by decide) (by decide) h1
              apply hlast
              rw [← hjoin, ← hdecomp, getLast?_joinSep_of_ne_nil _ hple]
              exact h2
          · intro h x hx
            rcases mem_joinSep hx with rfl | ⟨q, hq, hxq⟩
            · decide
            · obtain ⟨q', hq', hqq⟩ := List.mem_map.mp hq
              subst hqq
              have hq'sub : noSpace q' := by
                intro y hy
                exact h y (by
                  rw [← hjoin]
                  exact mem_joinSep_of_mem hq' hy)
              exact noSpace_pyCapitalize hq'sub x hxq
        · by_cases hl : (c :: rest).getLast? = some commaChar
          · rw [format_word_comma hc ha hl]
            have hlen : ((c :: rest).dropLast).length ≤ n := by
              simp only [List.length_dropLast_cons]
              simp only [List.length_cons] at hw
              omega
            obtain ⟨ih1, ih2, ih3, ih4, ih5⟩ := ih ((c :: rest).dropLast) hlen f p
            refine ⟨?_, ?_, ?_, ?_, ?_⟩
            · intro _; simp
            · intro _
              by_cases hD : (c :: rest).dropLast = []
              · rw [hD, format_word_nil, List.nil_append]
                intro h1
                exact absurd (Option.some.inj h1) (by decide)
              · have hDh : ((c :: rest).dropLast).head? = some c := by
                  cases rest with
                  | nil => exact absurd (show ([c] : List Char).dropLast = [] from rfl) hD
                  | cons a as => rw [List.dropLast_cons₂, List.head?_cons]
                have hinner := ih1 hD
                cases hfw : format_word ((c :: rest).dropLast) f p with
                | nil => exact absurd hfw hinner
                | cons b bs =>
                  rw [List.cons_append, List.head?_cons]
                  have := ih2 (by rw [hDh]; intro h1; exact hc (Option.some.inj h1))
                  rw [hfw, List.head?_cons] at this
                  exact this
            · intro h hmem
              have hDa : apos ∉ (c :: rest).dropLast :=
                fun hm => h (List.dropLast_subset _ hm)
              rcases List.mem_append.mp hmem with h1 | h1
              · exact ih3 hDa h1
              · rcases List.mem_singleton.mp h1 with h2
                exact absurd h2 (by decide)
            · intro h
              exact absurd hl h
            · intro h x hx
              have hDs : noSpace ((c :: rest).dropLast) :=
                fun y hy => h y (List.dropLast_subset _ hy)
              rcases List.mem_append.mp hx with h1 | h1
              · exact ih5 hDs x h1
              · rcases List.mem_singleton.mp h1 with rfl
                decide
          · by_cases hm : f = false ∧ p = false ∧ pyLower (c :: rest) ∈ minor_words
            · rw [format_word_minor hc ha hl hm]
              refine ⟨?_, ?_, ?_, ?_, ?_⟩
              · intro _; simp [pyLower]
              · intro _ h1
                have := head?_pyLower_neutral (by decide) h1
                rw [List.head?_cons] at this
                exact hc (Option.some.inj this)
              · intro h hmem
                exact h (mem_pyLower_neutral (by decide) hmem)
              · intro h h1
                exact hl (getLast?_pyLower_neutral (by decide) h1)
              · intro h
                exact noSpace_pyLower h
            · rw [format_word_cap hc ha hl hm]
              refine ⟨?_, ?_, ?_, ?_, ?_⟩
              · intro _
                simp [pyCapitalize_eq_nil_iff, pyLower_eq_nil_iff]
              · intro _ h1
                have h2 := head?_pyCapitalize_neutral (by decide) h1
                have h3 := head?_pyLower_neutral (by decide) h2
                rw [List.head?_cons] at h3
                exact hc (Option.some.inj h3)
              · intro h hmem
                exact h (mem_pyLower_neutral (by decide)
                  (mem_pyCapitalize_neutral (by decide) (by decide) hmem))
              · intro h h1
                exact hl (getLast?_pyLower_neutral (by decide)
                  (getLast?_pyCapitalize_neutral (by decide) (by decide) h1))
              · intro h
                exact noSpace_pyCapitalize (noSpace_pyLower h)

theorem format_word_apos' {w : List Char} (hw : w ≠ [])
    (hhead : w.head? ≠ some lparen) (ha : apos ∈ w) (f p : Bool) :
    format_word w f p = joinSep apos ((splitApos w).map pyCapitalize) := by
  cases w with
  | nil => exact absurd rfl hw
  | cons c rest =>
    exact format_word_apos (fun h => hhead (by rw [List.head?_cons, h])) ha f p

theorem format_word_comma' {w : List Char} (hw : w ≠ [])
    (hhead : w.head? ≠ some lparen) (ha : apos ∉ w)
    (hl : w.getLast? = some commaChar) (f p : Bool) :
    format_word w f p = format_word w.dropLast f p ++ [commaChar] := by
  cases w with
  | nil => exact absurd rfl hw
  | cons c rest =>
    exact format_word_comma (fun h => hhead (by rw [List.head?_cons, h])) ha hl f p

theorem format_word_minor' {w : List Char} {f p : Bool} (hw : w ≠ [])
    (hhead : w.head? ≠ some lparen) (ha : apos ∉ w)
    (hl : w.getLast? ≠ some commaChar)
    (hm : f = false ∧ p = false ∧ pyLower w ∈ minor_words) :
    format_word w f p = pyLower w := by
  cases w with
  | nil => exact absurd rfl hw
  | cons c rest =>
    exact format_word_minor (fun h => hhead (by rw [List.head?_cons, h])) ha hl hm

theorem format_word_cap' {w : List Char} {f p : Bool} (hw : w ≠ [])
    (hhead : w.head? ≠ some lparen) (ha : apos ∉ w)
    (hl : w.getLast? ≠ some commaChar)
    (hm : ¬ (f = false ∧ p = false ∧ pyLower w ∈ minor_words)) :
    format_word w f p = pyCapitalize (pyLower w) := by
  cases w with
  | nil => exact absurd rfl hw
  | cons c rest =>
    exact format_word_cap (fun h => hhead (by rw [List.head?_cons, h])) ha hl hm

/-- Formatting a word twice with the same flags is the same as formatting
it once. -/
theorem format_word_idem :
    ∀ (n : Nat) (w : List Char), w.length ≤ n → ∀ (f p : Bool),
      format_word (format_word w f p) f p = format_word w f p := by
  intro n
  induction n with
  | zero =>
    intro w hw f p
    have hwn : w = [] := List.length_eq_zero.mp (Nat.le_zero.mp hw)
    subst hwn
    rw [format_word_nil, format_word_nil]
  | succ n ih =>
    intro w hw f p
    cases w with
    | nil => rw [format_word_nil, format_word_nil]
    | cons c rest =>
      by_cases hc : c = lparen
      · subst hc
        by_cases hr : rest = []
        · subst hr
          rw [format_word_paren_single, format_word_paren_single]
        · have hlen : rest.length ≤ n := by
            simp only [List.length_cons] at hw
            omega
          rw [format_word_paren hr]
          have hfw : format_word rest true true ≠ [] :=
            (format_word_facts n rest hlen true true).1 hr
          rw [format_word_paren hfw]
          rw [ih rest hlen true true]
      · obtain ⟨F1, F2, F3, F4, F5⟩ := format_word_facts (n + 1) (c :: rest) hw f p
        have hOne : format_word (c :: rest) f p ≠ [] := F1 (by simp)
        have hOhead : (format_word (c :: rest) f p).head? ≠ some lparen :=
          F2 (by rw [List.head?_cons]; intro h1; exact hc (Option.some.inj h1))
        by_cases ha : apos ∈ c :: rest
        · have hout := format_word_apos hc ha f p
          have hparts2 : 2 ≤ (splitApos (c :: rest)).length :=
            two_le_length_splitApos ha
          obtain ⟨p0, q0, ps0, hps⟩ :
              ∃ p0 q0 ps0, splitApos (c :: rest) = p0 :: q0 :: ps0 := by
            cases h1 : splitApos (c :: rest) with
            | nil => rw [h1] at hparts2; simp at hparts2
            | cons p0 t =>
              cases t with
              | nil => rw [h1] at hparts2; simp at hparts2
              | cons q0 ps0 => exact ⟨p0, q0, ps0, rfl⟩
          have hOapos : apos ∈ format_word (c :: rest) f p := by
            rw [hout, hps, List.map_cons, List.map_cons]
            exact sep_mem_joinSep ..
          rw [format_word_apos' hOne hOhead hOapos]
          have hsplitO : splitApos (format_word (c :: rest) f p) =
              (splitApos (c :: rest)).map pyCapitalize := by
            rw [hout]
            apply splitApos_joinSep
            · intro h0
              rw [List.map_eq_nil_iff] at h0
              exact splitApos_ne_nil _ h0
            · intro q hq
              obtain ⟨q', hq', hqq⟩ := List.mem_map.mp hq
              subst hqq
              intro hmem
              exact apos_not_mem_of_mem_splitApos hq'
                (mem_pyCapitalize_neutral (by decide) (by decide) hmem)
          rw [hsplitO, List.map_map]
          rw [hout]
          congr 1
          simp only [Function.comp_def, pyCapitalize_pyCapitalize]
        · by_cases hl : (c :: rest).getLast? = some commaChar
          · rw [format_word_comma hc ha hl]
            have hDlen : ((c :: rest).dropLast).length ≤ n := by
              simp only [List.length_dropLast_cons]
              simp only [List.length_cons] at hw
              omega
            obtain ⟨G1, G2, G3, G4, G5⟩ :=
              format_word_facts n ((c :: rest).dropLast) hDlen f p
            by_cases hD : (c :: rest).dropLast = []
            · rw [hD, format_word_nil, List.nil_append]
              have h1 :=
                format_word_comma' (show ([commaChar] : List Char) ≠ [] by simp)
                  (by decide) (by decide) (by decide) f p
              rw [h1]
              rfl
            · have hinne : format_word ((c :: rest).dropLast) f p ≠ [] := G1 hD
              have hDhead : ((c :: rest).dropLast).head? = some c := by
                cases rest with
                | nil => exact absurd (show ([c] : List Char).dropLast = [] from rfl) hD
                | cons a as => rw [List.dropLast_cons₂, List.head?_cons]
              have hinhead : (format_word ((c :: rest).dropLast) f p).head? ≠ some lparen :=
                G2 (by rw [hDhead]; intro h1; exact hc (Option.some.inj h1))
              have hOne' : format_word ((c :: rest).dropLast) f p ++ [commaChar] ≠ [] := by
                simp
              have hOhead' : (format_word ((c :: rest).dropLast) f p ++ [commaChar]).head? ≠
                  some lparen := by
                cases hfw : format_word ((c :: rest).dropLast) f p with
                | nil => exact absurd hfw hinne
                | cons b bs =>
                  rw [List.cons_append, List.head?_cons]
                  rw [hfw, List.head?_cons] at hinhead
                  exact hinhead
              have hOapos' : apos ∉ format_word ((c :: rest).dropLast) f p ++ [commaChar] := by
                intro hmem
                rcases List.mem_append.mp hmem with h1 | h1
                · exact G3 (fun hm => ha (List.dropLast_subset _ hm)) h1
                · exact absurd (List.mem_singleton.mp h1) (by decide)
              have hOlast' : (format_word ((c :: rest).dropLast) f p ++ [commaChar]).getLast? =
                  some commaChar := List.getLast?_concat _
              rw [format_word_comma' hOne' hOhead' hOapos' hOlast']
              rw [List.dropLast_concat]
              rw [ih ((c :: rest).dropLast) hDlen f p]
          · by_cases hm : f = false ∧ p = false ∧ pyLower (c :: rest) ∈ minor_words
            · have hout := format_word_minor hc ha hl hm
              rw [hout]
              rw [← hout]
              have hOapos : apos ∉ format_word (c :: rest) f p := F3 ha
              have hOlast : (format_word (c :: rest) f p).getLast? ≠ some commaChar :=
                F4 hl
              rw [format_word_minor' hOne hOhead hOapos hOlast
                ⟨hm.1, hm.2.1, by rw [hout, pyLower_pyLower]; exact hm.2.2⟩]
              rw [hout, pyLower_pyLower]
            · have hout := format_word_cap hc ha hl hm
              have hOapos : apos ∉ format_word (c :: rest) f p := F3 ha
              have hOlast : (format_word (c :: rest) f p).getLast? ≠ some commaChar :=
                F4 hl
              have hmO : ¬ (f = false ∧ p = false ∧
                  pyLower (format_word (c :: rest) f p) ∈ minor_words) := by
                intro hm'
                apply hm
                refine ⟨hm'.1, hm'.2.1, ?_⟩
                have := hm'.2.2
                rwa [hout, pyLower_pyCapitalize, pyLower_pyLower] at this
              rw [format_word_cap' hOne hOhead hOapos hOlast hmO]
              rw [hout, pyLower_pyCapitalize, pyLower_pyLower]

/-- The word loop of `normalize_station_name`: `is_first = (i == 0)` and
`after_paren = (i > 0 and result[-1].endswith('('))`, where `result[-1]`
is the previously formatted word. -/
def normWords : List (List Char) → Bool → Bool → List (List Char)
  | [], _, _ => []
  | w :: ws, is_first, after_paren =>
    let fw := format_word w is_first after_paren
    fw :: normWords ws false (decide (fw.getLast? = some lparen))

/-- The function `normalize_station_name` on a char list.  The Python guard
`if not name or name.isspace(): return name` is exactly the condition
that every character of `name` is whitespace (vacuously so for the empty
string). -/
def normalize_station_name_list (name : List Char) : List Char :=
  if name.all isSpaceChar then name
  else joinSep spaceChar (normWords (pySplit name) true false)

/-- The function `normalize_station_name` on Lean strings. -/
def normalize_station_name (s : String) : String :=
  String.mk (normalize_station_name_list s.data)

theorem normWords_nil (f p : Bool) : normWords [] f p = [] := rfl

theorem normWords_cons (w : List Char) (ws : List (List Char)) (f p : Bool) :
    normWords (w :: ws) f p =
      format_word w f p ::
        normWords ws false (decide ((format_word w f p).getLast? = some lparen)) :=
  rfl

theorem normWords_words :
    ∀ (ws : List (List Char)) (f p : Bool),
      (∀ w ∈ ws, w ≠ [] ∧ noSpace w) →
      ∀ w ∈ normWords ws f p, w ≠ [] ∧ noSpace w := by
  intro ws
  induction ws with
  | nil => intro f p _ w hw; rw [normWords_nil] at hw; simp at hw
  | cons v vs ih =>
    intro f p hws w hw
    obtain ⟨hv, hvsp⟩ := hws v (List.mem_cons_self ..)
    rw [normWords_cons] at hw
    rcases List.mem_cons.mp hw with rfl | hw'
    · exact ⟨(format_word_facts v.length v (le_refl _) f p).1 hv,
        (format_word_facts v.length v (le_refl _) f p).2.2.2.2 hvsp⟩
    · exact ih _ _ (fun x hx => hws x (List.mem_cons_of_mem _ hx)) w hw'

theorem normWords_idem :
    ∀ (ws : List (List Char)) (f p : Bool),
      normWords (normWords ws f p) f p = normWords ws f p := by
  intro ws
  induction ws with
  | nil => intro f p; rfl
  | cons v vs ih =>
    intro f p
    rw [normWords_cons, normWords_cons]
    rw [format_word_idem v.length v (le_refl _) f p]
    congr 1
    exact ih _ _

theorem pySplitTok_all_space :
    ∀ l : List Char, (∀ c ∈ l, isSpaceChar c = true) → pySplitTok l [] = [] := by
  intro l
  induction l with
  | nil => intro _; rfl
  | cons c rest ih =>
    intro h
    conv_lhs => unfold pySplitTok
    rw [if_pos (h c (List.mem_cons_self ..)), if_pos rfl]
    exact ih (fun x hx => h x (List.mem_cons_of_mem _ hx))

theorem normalize_station_name_list_idem (l : List Char) :
    normalize_station_name_list (normalize_station_name_list l) =
      normalize_station_name_list l := by
  by_cases hsp : l.all isSpaceChar
  · have h1 : normalize_station_name_list l = l := by
      rw [normalize_station_name_list, if_pos hsp]
    rw [h1, h1]
  · have hwords : ∀ w ∈ pySplit l, w ≠ [] ∧ noSpace w :=
      pySplitTok_words l (by intro x hx; simp at hx)
    have hws' : ∀ w ∈ normWords (pySplit l) true false, w ≠ [] ∧ noSpace w :=
      normWords_words _ true false hwords
    have hex : ∃ c ∈ l, isSpaceChar c = false := by
      by_contra hno
      push_neg at hno
      apply hsp
      rw [List.all_eq_true]
      intro x hx
      have := hno x hx
      simpa using this
    have hne : pySplit l ≠ [] := pySplitTok_ne_nil_of_nonspace l [] hex
    obtain ⟨w0, ws0, hw0⟩ :
        ∃ w0 ws0, normWords (pySplit l) true false = w0 :: ws0 := by
      cases hsplit : pySplit l with
      | nil => exact absurd hsplit hne
      | cons a as => rw [normWords_cons]; exact ⟨_, _, rfl⟩
    have hOsp : ¬ (joinSep spaceChar (normWords (pySplit l) true false)).all
        isSpaceChar = true := by
      obtain ⟨hw0ne, hw0sp⟩ := hws' w0 (hw0 ▸ List.mem_cons_self ..)
      cases w0 with
      | nil => exact absurd rfl hw0ne
      | cons c0 t0 =>
        intro hall
        rw [List.all_eq_true] at hall
        have hmem : c0 ∈ joinSep spaceChar (normWords (pySplit l) true false) := by
          rw [hw0]
          exact mem_joinSep_of_mem (List.mem_cons_self ..) (List.mem_cons_self ..)
        have h1 := hall c0 hmem
        have h2 := hw0sp c0 (List.mem_cons_self ..)
        rw [h1] at h2
        exact absurd h2 (by simp)
    have hnorm : normalize_station_name_list l =
        joinSep spaceChar (normWords (pySplit l) true false) := by
      rw [normalize_station_name_list, if_neg hsp]
    rw [hnorm]
    rw [normalize_station_name_list, if_neg hOsp]
    rw [pySplit_joinSep _ hws']
    rw [normWords_idem]

/-- With both flags false, any formatted word that (lower-cased) is a
minor word is already all-lowercase: the capitalizing branch can only be
taken when `is_first` or `after_paren` holds. -/
theorem format_word_minor_stable {w : List Char}
    (hmem : pyLower (format_word w false false) ∈ minor_words) :
    format_word w false false = pyLower (format_word w false false) := by
  cases w with
  | nil =>
    rw [format_word_nil] at hmem ⊢
    exact absurd hmem (by decide)
  | cons c rest =>
    by_cases hc : c = lparen
    · subst hc
      by_cases hr : rest = []
      · subst hr
        rw [format_word_paren_single] at hmem
        have h1 : pyLower [lparen] = [lparen] := by
          simp [pyLower, pyLowerChar_lparen]
        rw [h1] at hmem
        exact absurd hmem (by decide)
      · rw [format_word_paren hr] at hmem
        have hheads : ∀ m ∈ minor_words, m.head? ≠ some lparen := by decide
        have h1 := hheads _ hmem
        exact absurd (by simp [pyLower, pyLowerChar_lparen]) h1
    · by_cases ha : apos ∈ c :: rest
      · rw [format_word_apos hc ha] at hmem
        have hparts2 : 2 ≤ (splitApos (c :: rest)).length :=
          two_le_length_splitApos ha
        obtain ⟨p0, q0, ps0, hps⟩ :
            ∃ p0 q0 ps0, splitApos (c :: rest) = p0 :: q0 :: ps0 := by
          cases h1 : splitApos (c :: rest) with
          | nil => rw [h1] at hparts2; simp at hparts2
          | cons p0 t =>
            cases t with
            | nil => rw [h1] at hparts2; simp at hparts2
            | cons q0 ps0 => exact ⟨p0, q0, ps0, rfl⟩
        have hmemA : apos ∈ joinSep apos ((splitApos (c :: rest)).map pyCapitalize) := by
          rw [hps, List.map_cons, List.map_cons]
          exact sep_mem_joinSep ..
        have hmemL : apos ∈ pyLower
            (joinSep apos ((splitApos (c :: rest)).map pyCapitalize)) :=
          List.mem_map.mpr ⟨apos, hmemA, pyLowerChar_apos⟩
        have hapos : ∀ m ∈ minor_words, apos ∉ m := by decide
        exact absurd hmemL (hapos _ hmem)
      · by_cases hl : (c :: rest).getLast? = some commaChar
        · rw [format_word_comma hc ha hl] at hmem
          have hlastm : ∀ m ∈ minor_words, m.getLast? ≠ some commaChar := by decide
          have h1 := hlastm _ hmem
          apply absurd _ h1
          rw [pyLower, getLast?_map_char, List.getLast?_concat]
          rw [Option.map_some', pyLowerChar_commaChar]
        · by_cases hm : (false : Bool) = false ∧ (false : Bool) = false ∧
              pyLower (c :: rest) ∈ minor_words
          · rw [format_word_minor hc ha hl hm]
            exact (pyLower_pyLower _).symm
          · rw [format_word_cap hc ha hl hm] at hmem ⊢
            rw [pyLower_pyCapitalize, pyLower_pyLower] at hmem
            exact absurd ⟨rfl, rfl, hmem⟩ hm

/-- In the output word list, a word whose lower-casing is a minor word,
which is not the first word and whose predecessor does not end in `(`,
is all lowercase. -/
theorem normWords_minor :
    ∀ (ws : List (List Char)) (f ap : Bool) (i : Nat) (w v : List Char),
      (normWords ws f ap)[i + 1]? = some w →
      (normWords ws f ap)[i]? = some v →
      v.getLast? ≠ some lparen →
      pyLower w ∈ minor_words →
      w = pyLower w := by
  intro ws
  induction ws with
  | nil =>
    intro f ap i w v h1 _ _ _
    rw [normWords_nil] at h1
    simp at h1
  | cons u us ih =>
    intro f ap i w v h1 h2 hv hmem
    rw [normWords_cons] at h1 h2
    cases i with
    | zero =>
      rw [List.getElem?_cons_zero] at h2
      have hveq : v = format_word u f ap := (Option.some.inj h2).symm
      rw [List.getElem?_cons_succ] at h1
      have hflag : decide ((format_word u f ap).getLast? = some lparen) = false :=
        decide_eq_false (by rw [← hveq]; exact hv)
      rw [hflag] at h1
      cases us with
      | nil => rw [normWords_nil] at h1; simp at h1
      | cons u2 us2 =>
        rw [normWords_cons, List.getElem?_cons_zero] at h1
        have hweq : w = format_word u2 false false := (Option.some.inj h1).symm
        subst hweq
        exact format_word_minor_stable hmem
    | succ j =>
      rw [List.getElem?_cons_succ] at h1 h2
      exact ih false _ j w v h1 h2 hv hmem

/-- C2: name normalization is idempotent — for every string `s`,
`normalize_station_name (normalize_station_name s) = normalize_station_name s`. -/
theorem C2_normalize_station_name_idempotent (s : String) :
    normalize_station_name (normalize_station_name s) =
      normalize_station_name s := by
  unfold normalize_station_name
  exact congrArg String.mk (normalize_station_name_list_idem s.data)

/-- C3: in the output of `normalize_station_name`, every word whose
lower-casing is a minor word is all lowercase unless it is the first word
or the preceding output word ends with an opening parenthesis; and
`"NEW YORK (THE BATTERY)"` normalizes to `"New York (The Battery)"`. -/
theorem C3_minor_words_lowercase :
    (∀ (l : List Char) (i : Nat) (w v : List Char),
        (pySplit (normalize_station_name_list l))[i + 1]? = some w →
        (pySplit (normalize_station_name_list l))[i]? = some v →
        v.getLast? ≠ some lparen →
        pyLower w ∈ minor_words →
        w = pyLower w) ∧
      normalize_station_name "NEW YORK (THE BATTERY)" =
        "New York (The Battery)" := by
  refine ⟨?_, by decide⟩
  intro l i w v h1 h2 hv hmem
  by_cases hsp : l.all isSpaceChar
  · have hnorm : normalize_station_name_list l = l := by
      rw [normalize_station_name_list, if_pos hsp]
    rw [hnorm] at h1
    have hsplit : pySplit l = [] := pySplitTok_all_space l (by
      intro c hc
      rw [List.all_eq_true] at hsp
      exact hsp c hc)
    rw [hsplit] at h1
    simp at h1
  · have hnorm : normalize_station_name_list l =
        joinSep spaceChar (normWords (pySplit l) true false) := by
      rw [normalize_station_name_list, if_neg hsp]
    have hwords : ∀ x ∈ pySplit l, x ≠ [] ∧ noSpace x :=
      pySplitTok_words l (by intro x hx; simp at hx)
    have hws' := normWords_words (pySplit l) true false hwords
    rw [hnorm, pySplit_joinSep _ hws'] at h1 h2
    exact normWords_minor (pySplit l) true false i w v h1 h2 hv hmem

theorem C3_minor_words_lowercase_witness :
    ((pySplit (normalize_station_name_list ("BANK OF AMERICA".data)))[0 + 1]? =
        some ("of".data) ∧
      (pySplit (normalize_station_name_list ("BANK OF AMERICA".data)))[0]? =
        some ("Bank".data) ∧
      ("Bank".data).getLast? ≠ some lparen ∧
      pyLower ("of".data) ∈ minor_words) ∧
      "of".data = pyLower ("of".data) :=
  ⟨⟨by decide, by decide, by decide, by decide⟩,
    C3_minor_words_lowercase.1 ("BANK OF AMERICA".data) 0 ("of".data)
      ("Bank".data) (by decide) (by decide) (by decide) (by decide)⟩

/-- C9: a word containing an apostrophe (and not starting with an opening
parenthesis, which rule (c) strips first) is formatted by splitting at
apostrophes and capitalizing each part independently; in particular
`"O'BRIEN ISLAND"` normalizes to `"O'Brien Island"`. -/
theorem C9_apostrophe_capitalization :
    (∀ (w : List Char) (f p : Bool), w.head? ≠ some lparen → apos ∈ w →
        format_word w f p = joinSep apos ((splitApos w).map pyCapitalize)) ∧
      normalize_station_name_list ("O".data ++ apos :: "BRIEN ISLAND".data) =
        "O".data ++ apos :: "Brien Island".data := by
  refine ⟨?_, by decide⟩
  intro w f p hhead ha
  exact format_word_apos' (List.ne_nil_of_mem ha) hhead ha f p

theorem C9_apostrophe_capitalization_witness :
    (("O".data ++ apos :: "BRIEN".data).head? ≠ some lparen ∧
      apos ∈ "O".data ++ apos :: "BRIEN".data) ∧
      format_word ("O".data ++ apos :: "BRIEN".data) false false =
        joinSep apos
          ((splitApos ("O".data ++ apos :: "BRIEN".data)).map pyCapitalize) :=
  ⟨⟨by decide, by decide⟩,
    C9_apostrophe_capitalization.1 ("O".data ++ apos :: "BRIEN".data)
      false false (by decide) (by decide)⟩

/-! ## The fetcher (`fetch_noaa_data.py`)

JSON objects are structures with `Option` fields (`none` = absent key);
each response type carries a `hasOtherKeys` flag recording whether the
object has keys beyond the modelled ones, which matters only for Python
dict truthiness. -/

/-- A JSON harmonic-constituent entry. -/
structure Constituent where
  name : Option String
  amplitude : Option ℚ
  phase_GMT : Option ℚ
deriving DecidableEq

/-- The JSON object returned by the per-station `harcon` endpoint. -/
structure HarconResp where
  harmonicConstituents : Option (List Constituent)
  hasOtherKeys : Bool
deriving DecidableEq

/-- Python truthiness of the `harcon` JSON object (an empty dict is falsy). -/
def HarconResp.truthy (r : HarconResp) : Bool :=
  r.harmonicConstituents.isSome || r.hasOtherKeys

/-- A JSON datum entry, with its `name` and numeric `value`. -/
structure DatumEntry where
  name : String
  value : ℚ
deriving DecidableEq

/-- The JSON object returned by the per-station `datums` endpoint;
`datums = none` covers both an absent and a JSON-`null` `datums` key
(the code treats both as the empty list via `.get("datums") or []`). -/
structure DatumsResp where
  datums : Option (List DatumEntry)
  hasOtherKeys : Bool
deriving DecidableEq

def DatumsResp.truthy (r : DatumsResp) : Bool :=
  r.datums.isSome || r.hasOtherKeys

/-- The JSON object returned by the `tidepredoffsets` endpoint. -/
structure OffsetsJson where
  timeOffsetHighTide : Option Int
  timeOffsetLowTide : Option Int
  heightOffsetHighTide : Option ℚ
  heightOffsetLowTide : Option ℚ
  hasOtherKeys : Bool
deriving DecidableEq

def OffsetsJson.truthy (o : OffsetsJson) : Bool :=
  o.timeOffsetHighTide.isSome || o.timeOffsetLowTide.isSome ||
    o.heightOffsetHighTide.isSome || o.heightOffsetLowTide.isSome ||
    o.hasOtherKeys

/-- One station record as carried through the pipeline (a JSON object). -/
structure StationData where
  id : Option String
  name : Option String
  state : Option String
  region : Option String
  lat : Option ℚ
  lng : Option ℚ
  type : Option String
  timezoneOffset : Option Int
  reference_id : Option String
  referenceStationId : Option String
  datumOffset : Option ℚ
  harmonics : Option HarconResp
  tidepredoffsets : Option OffsetsJson
deriving DecidableEq

/-- Outcome of one HTTP attempt of a per-station call. -/
inductive AttemptOutcome
  | notFound
  | success (data : HarconResp)
  | failure
deriving DecidableEq

def MAX_RETRIES : Nat := 3

/-- The retry loop of `fetch_harmonic_constituents`: `attempt` is the
index of Python's `for attempt in range(MAX_RETRIES)`, `fuel` the number
of remaining iterations.  A 404 returns `none` (definitive absence); a
successful response returns the parsed JSON; a request exception sleeps
and retries unless this was the last attempt, in which case a warning is
printed and `None` is returned. -/
def fetchHarconLoop (attempts : Nat → AttemptOutcome) : Nat → Nat → Option HarconResp
  | _, 0 => none
  | attempt, fuel + 1 =>
    match attempts attempt with
    | AttemptOutcome.notFound => none
    | AttemptOutcome.success d => some d
    | AttemptOutcome.failure =>
      if attempt < MAX_RETRIES - 1 then fetchHarconLoop attempts (attempt + 1) fuel
      else none

def fetch_harmonic_constituents (attempts : Nat → AttemptOutcome) :
    Option HarconResp :=
  fetchHarconLoop attempts 0 MAX_RETRIES

/-- Oracle for the network calls made while enriching one station: the
outcome of each `harcon` attempt, and the results of `fetch_datums` and
`fetch_tide_pred_offsets` (already retried internally, so modelled at the
level of their `Option` results). -/
structure FetchOracle where
  harcon : Nat → AttemptOutcome
  datums : Option DatumsResp
  offsets : Option OffsetsJson

/-- The test `if harmonics and len(...HarmonicConstituents...) > 0` of the main loop. -/
def harconUsable : Option HarconResp → Bool
  | none => false
  | some r => r.truthy && decide (0 < (r.harmonicConstituents.getD []).length)

/-- The per-station enrichment of the fetcher main loop (lines 322–382),
without the progress logging. -/
def processStation (station_data : StationData) (o : FetchOracle) : StationData :=
  let reference_id := station_data.reference_id
  let harmonics := fetch_harmonic_constituents o.harcon
  if harconUsable harmonics then
    let st1 := { station_data with harmonics := harmonics, type := some "harmonic" }
    match o.datums with
    | none => st1
    | some datums_data =>
      if datums_data.truthy then
        let datums_list := datums_data.datums.getD []
        if datums_list.isEmpty then st1
        else
          match (datums_list.find? (fun d => d.name == "MSL")).map DatumEntry.value,
              (datums_list.find? (fun d => d.name == "MLLW")).map DatumEntry.value with
          | some msl_val, some mllw_val =>
            { st1 with datumOffset := some (msl_val - mllw_val) }
          | _, _ => st1
      else st1
  else
    let st2 := { station_data with type := some "subordinate" }
    match reference_id with
    | some rid =>
      if rid = "" then st2
      else
        let st3 := { st2 with referenceStationId := some rid }
        match o.offsets with
        | some offsets =>
          if offsets.truthy then { st3 with tidepredoffsets := some offsets }
          else st3
        | none => st3
    | none => st2

/-- The fetcher main loop over the selected stations; `i` is the position
in the enumeration and the oracle gives the network outcomes for the
`i`-th station. -/
def fetchMainLoop (oracle : Nat → FetchOracle) :
    List StationData → Nat → List StationData
  | [], _ => []
  | st :: rest, i => processStation st (oracle i) :: fetchMainLoop oracle rest (i + 1)

/-- The function `filter_stations`: keep the stations whose id is in the requested
set, and compute the missing requested ids that are warned about.  (The
Python code prints the missing set sorted; we keep first-occurrence
order — membership is identical.) -/
def filter_stations (all_stations : List StationData)
    (station_ids : List String) : List StationData × List String :=
  let filtered := all_stations.filter (fun s =>
    match s.id with
    | some i => station_ids.contains i
    | none => false)
  let missing := (station_ids.filter
    (fun i => ! filtered.any (fun s => s.id == some i))).dedup
  (filtered, missing)

/-- The main-path handling of an explicit `--stations` list: filter with
warnings for the missing ids, then abort with exit code 1 when no station
remains (`if not stations: ... sys.exit(1)`), else continue with the
filtered list.  First component: the warned-about missing ids; second:
`error` for an aborted run, `ok` with the stations to process otherwise. -/
def runRequested (all_stations : List StationData) (station_ids : List String) :
    List String × Except Unit (List StationData) :=
  let res := filter_stations all_stations station_ids
  (res.2, if res.1.isEmpty then Except.error () else Except.ok res.1)

/-! ## The database builder (`build_database.py`) -/

/-- A row of the `stations` table. -/
structure StationRow where
  id : String
  name : String
  state : String
  latitude : ℚ
  longitude : ℚ
  type : String
  timezoneOffset : Int
  referenceStationId : Option String
  datumOffset : ℚ
deriving DecidableEq

/-- A row of the `harmonic_constituents` table. -/
structure HarmonicRow where
  stationId : String
  constituentName : String
  amplitude : ℚ
  phaseLocal : ℚ
deriving DecidableEq

/-- A row of the `subordinate_offsets` table. -/
structure SubordinateRow where
  stationId : String
  referenceStationId : String
  timeOffsetHigh : Int
  timeOffsetLow : Int
  heightOffsetHigh : ℚ
  heightOffsetLow : ℚ
deriving DecidableEq

/-- The three tables created by `create_schema`.  `INSERT OR REPLACE`
deletes any row with the same primary key and appends the new row. -/
structure DB where
  stations : List StationRow
  harmonic_constituents : List HarmonicRow
  subordinate_offsets : List SubordinateRow
deriving DecidableEq

def emptyDB : DB := ⟨[], [], []⟩

def upsertStation (db : DB) (row : StationRow) : DB :=
  { db with stations := db.stations.filter (fun r => ! (r.id == row.id)) ++ [row] }

def upsertHarmonic (db : DB) (row : HarmonicRow) : DB :=
  { db with harmonic_constituents :=
      (db.harmonic_constituents.filter (fun r =>
        ! (r.stationId == row.stationId &&
          r.constituentName == row.constituentName))) ++ [row] }

def upsertSubordinate (db : DB) (row : SubordinateRow) : DB :=
  { db with subordinate_offsets :=
      (db.subordinate_offsets.filter (fun r =>
        ! (r.stationId == row.stationId))) ++ [row] }

/-- The row `insert_station` builds from a record, given its non-null id. -/
def stationRowOf (station_data : StationData) (sid : String) : StationRow where
  id := sid
  name := normalize_station_name (station_data.name.getD "Unknown")
  state := station_data.state.getD (station_data.region.getD "Unknown")
  latitude := station_data.lat.getD 0
  longitude := station_data.lng.getD 0
  type := station_data.type.getD "harmonic"
  timezoneOffset := station_data.timezoneOffset.getD 0
  referenceStationId := station_data.referenceStationId
  datumOffset := station_data.datumOffset.getD 0

/-- The function `insert_station`: a record with no `id` violates the
`NOT NULL PRIMARY KEY` constraint and raises; otherwise upsert the row. -/
def insert_station (db : DB) (station_data : StationData) : Except String DB :=
  match station_data.id with
  | none => Except.error "NOT NULL constraint failed: stations.id"
  | some sid => Except.ok (upsertStation db (stationRowOf station_data sid))

/-- The loop body of `insert_harmonics`: a constituent with no `name`
violates `NOT NULL` on `constituentName` (no default) and raises. -/
def insertConstituents (db : DB) (sid : String) :
    List Constituent → Except String DB
  | [] => Except.ok db
  | c :: rest =>
    match c.name with
    | none =>
      Except.error "NOT NULL constraint failed: harmonic_constituents.constituentName"
    | some nm =>
      insertConstituents
        (upsertHarmonic db ⟨sid, nm, c.amplitude.getD 0, c.phase_GMT.getD 0⟩)
        sid rest

def insert_harmonics (db : DB) (sid : String) (harmonics : HarconResp) :
    Except String DB :=
  insertConstituents db sid (harmonics.harmonicConstituents.getD [])

def insert_subordinate_offsets (db : DB) (sid rid : String)
    (offsets : OffsetsJson) : DB :=
  upsertSubordinate db
    ⟨sid, rid, offsets.timeOffsetHighTide.getD 0, offsets.timeOffsetLowTide.getD 0,
      offsets.heightOffsetHighTide.getD 1, offsets.heightOffsetLowTide.getD 1⟩

/-- One iteration of the `build_database` loop (lines 306–326): read the
id, insert the station row, then either the constituent rows (type
`"harmonic"`, defaulted when absent, and a `harmonics` key present) or,
otherwise, the subordinate-offset row when both `referenceStationId` and
`tidepredoffsets` are present. -/
def buildStep (db : DB) (station_data : StationData) : Except String DB :=
  match station_data.id with
  | none => Except.error "NOT NULL constraint failed: stations.id"
  | some sid =>
    match insert_station db station_data with
    | Except.error e => Except.error e
    | Except.ok db1 =>
      match station_data.type.getD "harmonic" == "harmonic",
          station_data.harmonics with
      | true, some harmonics => insert_harmonics db1 sid harmonics
      | _, _ =>
        match station_data.referenceStationId, station_data.tidepredoffsets with
        | some rid, some offsets =>
          Except.ok (insert_subordinate_offsets db1 sid rid offsets)
        | _, _ => Except.ok db1

def buildRun : DB → List StationData → Except String DB
  | db, [] => Except.ok db
  | db, station_data :: rest =>
    match buildStep db station_data with
    | Except.error e => Except.error e
    | Except.ok db1 => buildRun db1 rest

/-- The function `build_database`: create the empty schema, then insert every record
in order; commit happens only at the end, so a raising insert yields no
database. -/
def build_database (stations : List StationData) : Except String DB :=
  buildRun emptyDB stations

/-! ## Classification (claim C1) -/

theorem harconUsable_iff (h : Option HarconResp) :
    harconUsable h = true ↔
      ∃ r cs, h = some r ∧ r.harmonicConstituents = some cs ∧ cs ≠ [] := by
  cases h with
  | none => simp [harconUsable]
  | some r =>
    cases hc : r.harmonicConstituents with
    | none => simp [harconUsable, HarconResp.truthy, hc]
    | some cs =>
      simp only [harconUsable, HarconResp.truthy, hc, Option.isSome_some,
        Bool.true_or, Bool.true_and, Option.getD_some, decide_eq_true_eq,
        Option.some.injEq]
      constructor
      · intro hlen
        exact ⟨r, cs, rfl, hc, by
          intro h0
          subst h0
          simp at hlen⟩
      · rintro ⟨r', cs', hr', hcs', hne⟩
        subst hr'
        rw [hc] at hcs'
        rcases Option.some.inj hcs' with rfl
        exact List.length_pos.mpr hne

theorem processStation_type_harmonic (st : StationData) (o : FetchOracle)
    (h : harconUsable (fetch_harmonic_constituents o.harcon) = true) :
    (processStation st o).type = some "harmonic" := by
  unfold processStation
  rw [if_pos h]
  dsimp only
  repeat' first
  | rfl
  | split

theorem processStation_type_subordinate (st : StationData) (o : FetchOracle)
    (h : harconUsable (fetch_harmonic_constituents o.harcon) = false) :
    (processStation st o).type = some "subordinate" := by
  unfold processStation
  rw [if_neg (by simp [h])]
  dsimp only
  repeat' first
  | rfl
  | split

theorem insertConstituents_tables :
    ∀ (cs : List Constituent) (db : DB) (sid : String) (db1 : DB),
      insertConstituents db sid cs = Except.ok db1 →
      db1.stations = db.stations ∧
      db1.subordinate_offsets = db.subordinate_offsets ∧
      ∀ h ∈ db1.harmonic_constituents,
        h ∈ db.harmonic_constituents ∨ h.stationId = sid := by
  intro cs
  induction cs with
  | nil =>
    intro db sid db1 hrun
    rcases Except.ok.inj hrun with rfl
    exact ⟨rfl, rfl, fun h hm => Or.inl hm⟩
  | cons c rest ih =>
    intro db sid db1 hrun
    unfold insertConstituents at hrun
    cases hn : c.name with
    | none => rw [hn] at hrun; exact absurd hrun (by simp)
    | some nm =>
      rw [hn] at hrun
      obtain ⟨h1, h2, h3⟩ := ih _ sid db1 hrun
      refine ⟨h1, h2, ?_⟩
      intro h hm
      rcases h3 h hm with hm' | hsid
      · rcases List.mem_append.mp hm' with hm'' | hm''
        · exact Or.inl (List.mem_filter.mp hm'').1
        · rcases List.mem_singleton.mp hm'' with rfl
          exact Or.inr rfl
      · exact Or.inr hsid

theorem insert_station_some {db : DB} {station_data : StationData} {sid : String}
    (h : station_data.id = some sid) :
    insert_station db station_data =
      Except.ok (upsertStation db (stationRowOf station_data sid)) := by
  unfold insert_station
  rw [h]

theorem buildStep_no_harmonics {db : DB} {station_data : StationData} {db1 : DB}
    (hstep : buildStep db station_data = Except.ok db1)
    (hnot : ¬ (station_data.type.getD "harmonic" = "harmonic" ∧
      station_data.harmonics.isSome = true)) :
    db1.harmonic_constituents = db.harmonic_constituents := by
  unfold buildStep at hstep
  cases hid : station_data.id with
  | none => rw [hid] at hstep; exact absurd hstep (by simp)
  | some sid =>
    rw [hid, insert_station_some hid] at hstep
    dsimp only at hstep
    split at hstep
    · next heq1 heq2 =>
      exact absurd ⟨eq_of_beq heq1, by rw [heq2]; rfl⟩ hnot
    · next =>
      split at hstep
      · next =>
        rcases Except.ok.inj hstep with rfl
        rfl
      · next =>
        rcases Except.ok.inj hstep with rfl
        rfl

/-- An oracle whose `harcon` call 404s and whose other calls return
nothing. -/
def subordinateOracle : FetchOracle :=
  ⟨fun _ => AttemptOutcome.notFound, none, none⟩

/-- A bare upstream station record (only `id` and `name` present). -/
def upstreamStation : StationData :=
  { id := some "9414290", name := some "SAN FRANCISCO", state := none,
    region := none, lat := none, lng := none, type := none,
    timezoneOffset := none, reference_id := none, referenceStationId := none,
    datumOffset := none, harmonics := none, tidepredoffsets := none }

/-- A record already classified subordinate by the fetcher. -/
def subStation : StationData :=
  { upstreamStation with type := some "subordinate" }

def subDB1 : DB := upsertStation emptyDB (stationRowOf subStation "9414290")

/-- C1: the fetcher classifies a station `harmonic` exactly when the
harmonic-constituents call returned data whose `HarmonicConstituents`
list is present and non-empty, and `subordinate` otherwise (call yielded
nothing, or the list is absent or empty); and a record that the builder
does not classify as harmonic (type not `"harmonic"` after defaulting, or
no `harmonics` key) contributes no rows to the harmonic-constituents
table. -/
theorem C1_classification :
    (∀ (st : StationData) (o : FetchOracle),
        ((processStation st o).type = some "harmonic" ↔
          ∃ r cs, fetch_harmonic_constituents o.harcon = some r ∧
            r.harmonicConstituents = some cs ∧ cs ≠ []) ∧
        (¬ (∃ r cs, fetch_harmonic_constituents o.harcon = some r ∧
              r.harmonicConstituents = some cs ∧ cs ≠ []) →
          (processStation st o).type = some "subordinate")) ∧
    (∀ (db : DB) (station_data : StationData) (db1 : DB),
        buildStep db station_data = Except.ok db1 →
        ¬ (station_data.type.getD "harmonic" = "harmonic" ∧
            station_data.harmonics.isSome = true) →
        db1.harmonic_constituents = db.harmonic_constituents) := by
  refine ⟨?_, fun db d db1 h1 h2 => buildStep_no_harmonics h1 h2⟩
  intro st o
  have hsub : ∀ hu : harconUsable (fetch_harmonic_constituents o.harcon) = false,
      (processStation st o).type = some "subordinate" :=
    fun hu => processStation_type_subordinate st o hu
  constructor
  · rw [← harconUsable_iff]
    cases hu : harconUsable (fetch_harmonic_constituents o.harcon) with
    | true => simp [processStation_type_harmonic st o hu]
    | false =>
      rw [hsub hu]
      simp
  · intro hne
    apply processStation_type_subordinate
    cases hu : harconUsable (fetch_harmonic_constituents o.harcon) with
    | false => rfl
    | true => exact absurd ((harconUsable_iff _).mp hu) hne

theorem C1_classification_witness :
    ((¬ ∃ r cs, fetch_harmonic_constituents subordinateOracle.harcon = some r ∧
          r.harmonicConstituents = some cs ∧ cs ≠ []) ∧
      (processStation upstreamStation subordinateOracle).type =
        some "subordinate") ∧
    (buildStep emptyDB subStation = Except.ok subDB1 ∧
      ¬ (subStation.type.getD "harmonic" = "harmonic" ∧
          subStation.harmonics.isSome = true) ∧
      subDB1.harmonic_constituents = emptyDB.harmonic_constituents) := by
  have hne : ¬ ∃ r cs,
      fetch_harmonic_constituents subordinateOracle.harcon = some r ∧
        r.harmonicConstituents = some cs ∧ cs ≠ [] := by
    rintro ⟨r, cs, hr, _, _⟩
    rw [show fetch_harmonic_constituents subordinateOracle.harcon = none
      from rfl] at hr
    exact Option.noConfusion hr
  exact ⟨⟨hne, (C1_classification.1 upstreamStation subordinateOracle).2 hne⟩,
    ⟨rfl, by decide,
      C1_classification.2 emptyDB subStation subDB1 rfl (by decide)⟩⟩

/-- C6: when the retry ceiling is exhausted (every attempt raises a
request exception) `fetch_harmonic_constituents` returns `None` rather
than raising; and the fetcher main loop processes every station of its
input list in order, each with its own oracle — so one station's failures
never stop the enumeration of the remaining stations. -/
theorem C6_retry_exhaustion_and_continuation :
    (∀ attempts : Nat → AttemptOutcome,
        (∀ k, k < MAX_RETRIES → attempts k = AttemptOutcome.failure) →
        fetch_harmonic_constituents attempts = none) ∧
    (∀ (oracle : Nat → FetchOracle) (stations : List StationData) (i j : Nat),
        (fetchMainLoop oracle stations i).length = stations.length ∧
        (fetchMainLoop oracle stations i)[j]? =
          (stations[j]?).map (fun st => processStation st (oracle (i + j)))) := by
  constructor
  · intro attempts h
    have h0 := h 0 (by decide)
    have h1 := h 1 (by decide)
    have h2 := h 2 (by decide)
    simp [fetch_harmonic_constituents, MAX_RETRIES, fetchHarconLoop, h0, h1, h2]
  · intro oracle stations i j
    induction stations generalizing i j with
    | nil => simp [fetchMainLoop]
    | cons st rest ih =>
      have hunf : fetchMainLoop oracle (st :: rest) i =
          processStation st (oracle i) :: fetchMainLoop oracle rest (i + 1) := rfl
      refine ⟨by rw [hunf]; simp [(ih (i + 1) 0).1], ?_⟩
      cases j with
      | zero => simp [hunf]
      | succ j' =>
        rw [hunf, List.getElem?_cons_succ, List.getElem?_cons_succ]
        rw [(ih (i + 1) j').2]
        have harith : i + 1 + j' = i + (j' + 1) := by omega
        rw [harith]

theorem C6_retry_exhaustion_witness :
    (∀ k, k < MAX_RETRIES →
      (fun _ : Nat => AttemptOutcome.failure) k = AttemptOutcome.failure) ∧
    fetch_harmonic_constituents (fun _ => AttemptOutcome.failure) = none :=
  ⟨fun _ _ => rfl,
    C6_retry_exhaustion_and_continuation.1 (fun _ => AttemptOutcome.failure)
      (fun _ _ => rfl)⟩

/-- Characterization of the `datumOffset` field after enrichment of a
harmonic station: it is set to the difference of the first MSL and MLLW
values when both are found, and left unchanged in every other case
(no datum response, falsy or empty datum data, missing entry). -/
theorem processStation_datumOffset (st : StationData) (o : FetchOracle)
    (hu : harconUsable (fetch_harmonic_constituents o.harcon) = true) :
    (processStation st o).datumOffset =
      match o.datums with
      | none => st.datumOffset
      | some dd =>
        match dd.datums with
        | none => st.datumOffset
        | some dl =>
          match (dl.find? (fun d => d.name == "MSL")).map DatumEntry.value,
              (dl.find? (fun d => d.name == "MLLW")).map DatumEntry.value with
          | some a, some b => some (a - b)
          | _, _ => st.datumOffset := by
  unfold processStation
  rw [if_pos hu]
  dsimp only
  cases hod : o.datums with
  | none => rfl
  | some dd =>
    cases hdd : dd.datums with
    | none =>
      by_cases hk : dd.hasOtherKeys = true <;>
        simp [DatumsResp.truthy, hdd, hk]
    | some dl =>
      have ht : dd.truthy = true := by simp [DatumsResp.truthy, hdd]
      cases dl with
      | nil => simp [ht, hdd]
      | cons a as =>
        cases hm1 : ((a :: as).find? (fun d => d.name == "MSL")).map
            DatumEntry.value with
        | none =>
          cases hm2 : ((a :: as).find? (fun d => d.name == "MLLW")).map
              DatumEntry.value with
          | none => simp [ht, hdd, hm1, hm2]
          | some b => simp [ht, hdd, hm1, hm2]
        | some a' =>
          cases hm2 : ((a :: as).find? (fun d => d.name == "MLLW")).map
              DatumEntry.value with
          | none => simp [ht, hdd, hm1, hm2]
          | some b => simp [ht, hdd, hm1, hm2]

/-- C7: for a station classified harmonic, when the fetched datum list
contains both an `MSL` and an `MLLW` entry the record's `datumOffset` is
set to the (first) MSL value minus the (first) MLLW value; when the datum
data or either entry is missing the field is left unchanged (hence
absent), and the builder stores the default `0.0` in the station row for
an absent field. -/
theorem C7_datum_offset :
    (∀ (st : StationData) (o : FetchOracle) (dd : DatumsResp)
        (dl : List DatumEntry) (dmsl dmllw : DatumEntry),
        harconUsable (fetch_harmonic_constituents o.harcon) = true →
        o.datums = some dd →
        dd.datums = some dl →
        dl.find? (fun d => d.name == "MSL") = some dmsl →
        dl.find? (fun d => d.name == "MLLW") = some dmllw →
        (processStation st o).datumOffset = some (dmsl.value - dmllw.value)) ∧
    (∀ (st : StationData) (o : FetchOracle),
        harconUsable (fetch_harmonic_constituents o.harcon) = true →
        (¬ ∃ dd dl dmsl dmllw, o.datums = some dd ∧ dd.datums = some dl ∧
            dl.find? (fun d => d.name == "MSL") = some dmsl ∧
            dl.find? (fun d => d.name == "MLLW") = some dmllw) →
        (processStation st o).datumOffset = st.datumOffset) ∧
    (∀ (station_data : StationData) (sid : String),
        station_data.datumOffset = none →
        (stationRowOf station_data sid).datumOffset = 0) := by
  refine ⟨?_, ?_, ?_⟩
  · intro st o dd dl dmsl dmllw hu hod hdd hmsl hmllw
    rw [processStation_datumOffset st o hu]
    simp only [hod, hdd, hmsl, hmllw, Option.map_some']
  · intro st o hu hmiss
    rw [processStation_datumOffset st o hu]
    split
    · rfl
    · next dd hod =>
      split
      · rfl
      · next dl hdd =>
        split
        · next a b hma hmb =>
          obtain ⟨dmsl, hmsl, _⟩ := Option.map_eq_some'.mp hma
          obtain ⟨dmllw, hmllw, _⟩ := Option.map_eq_some'.mp hmb
          exact absurd ⟨dd, dl, dmsl, dmllw, hod, hdd, hmsl, hmllw⟩ hmiss
        · rfl
  · intro station_data sid h
    simp [stationRowOf, h]

/-- An oracle giving a harmonic response and MSL/MLLW datums. -/
def harmonicOracle : FetchOracle where
  harcon := fun _ =>
    AttemptOutcome.success ⟨some [⟨some "M2", some 1, some 2⟩], false⟩
  datums := some ⟨some [⟨"MSL", 5⟩, ⟨"MLLW", 2⟩], false⟩
  offsets := none

theorem C7_datum_offset_witness :
    (harconUsable (fetch_harmonic_constituents harmonicOracle.harcon) = true ∧
      harmonicOracle.datums = some ⟨some [⟨"MSL", 5⟩, ⟨"MLLW", 2⟩], false⟩ ∧
      ([⟨"MSL", 5⟩, ⟨"MLLW", 2⟩] : List DatumEntry).find?
          (fun d => d.name == "MSL") = some ⟨"MSL", 5⟩ ∧
      ([⟨"MSL", 5⟩, ⟨"MLLW", 2⟩] : List DatumEntry).find?
          (fun d => d.name == "MLLW") = some ⟨"MLLW", 2⟩) ∧
    (processStation upstreamStation harmonicOracle).datumOffset =
      some ((5 : ℚ) - 2) :=
  ⟨⟨rfl, rfl, rfl, rfl⟩,
    C7_datum_offset.1 upstreamStation harmonicOracle
      ⟨some [⟨"MSL", 5⟩, ⟨"MLLW", 2⟩], false⟩ [⟨"MSL", 5⟩, ⟨"MLLW", 2⟩]
      ⟨"MSL", 5⟩ ⟨"MLLW", 2⟩ rfl rfl rfl rfl rfl⟩

/-- C4 as stated is false at this input: with the single upstream station
`9414290` and the explicit request list `["0000000"]`, the missing id is
reported in the warning list, but the run does NOT continue — it aborts
(exit code 1) because no requested station was found. -/
theorem C4_counterexample_abort :
    (runRequested [upstreamStation] ["0000000"]).1 = ["0000000"] ∧
    (runRequested [upstreamStation] ["0000000"]).2 = Except.error () :=
  ⟨rfl, rfl⟩

/-- C4 (amended): every requested id with no matching upstream station is
reported among the warned missing ids; provided at least one requested
station is found, the run continues and processes exactly the found
stations; if none is found the run aborts with exit code 1. -/
theorem C4_missing_ids_warned :
    ∀ (all_stations : List StationData) (station_ids : List String),
      (∀ i ∈ station_ids, (∀ s ∈ all_stations, s.id ≠ some i) →
        i ∈ (runRequested all_stations station_ids).1) ∧
      ((filter_stations all_stations station_ids).1 ≠ [] →
        (runRequested all_stations station_ids).2 =
          Except.ok (filter_stations all_stations station_ids).1) ∧
      ((filter_stations all_stations station_ids).1 = [] →
        (runRequested all_stations station_ids).2 = Except.error ()) := by
  intro all_stations station_ids
  refine ⟨?_, ?_, ?_⟩
  · intro i hi hno
    have h1 : (runRequested all_stations station_ids).1 =
        (filter_stations all_stations station_ids).2 := rfl
    rw [h1]
    unfold filter_stations
    dsimp only
    rw [List.mem_dedup, List.mem_filter]
    refine ⟨hi, ?_⟩
    simp only [Bool.not_eq_true', List.any_eq_false]
    intro s hs
    have hs' : s ∈ all_stations := (List.mem_filter.mp hs).1
    have hne := hno s hs'
    simp [hne]
  · intro hne
    unfold runRequested
    dsimp only
    rw [if_neg (by simp [List.isEmpty_iff, hne])]
  · intro he
    unfold runRequested
    dsimp only
    rw [if_pos (by simp [List.isEmpty_iff, he])]

theorem C4_missing_ids_warned_witness :
    ("0000000" ∈ ["0000000"] ∧
      (∀ s ∈ [upstreamStation], s.id ≠ some "0000000")) ∧
      "0000000" ∈ (runRequested [upstreamStation] ["0000000"]).1 :=
  ⟨⟨by decide, by decide⟩,
    (C4_missing_ids_warned [upstreamStation] ["0000000"]).1 "0000000"
      (by decide) (by decide)⟩

/-! ## Referential integrity (claim C5) -/

/-- Every constituent row references a station id present in the station
table. -/
def dbIntegrity (db : DB) : Prop :=
  ∀ h ∈ db.harmonic_constituents, ∃ s ∈ db.stations, s.id = h.stationId

theorem upsertStation_id_preserved {db : DB} {row : StationRow} {i : String}
    (h : ∃ s ∈ db.stations, s.id = i) :
    ∃ s ∈ (upsertStation db row).stations, s.id = i := by
  obtain ⟨s, hs, hsi⟩ := h
  by_cases hrow : (s.id == row.id) = true
  · refine ⟨row, List.mem_append_right _ (List.mem_singleton.mpr rfl), ?_⟩
    rw [← hsi]
    exact (eq_of_beq hrow).symm
  · exact ⟨s, List.mem_append_left _ (List.mem_filter.mpr ⟨hs, by simp [hrow]⟩), hsi⟩

theorem upsertStation_row_mem (db : DB) (row : StationRow) :
    ∃ s ∈ (upsertStation db row).stations, s.id = row.id :=
  ⟨row, List.mem_append_right _ (List.mem_singleton.mpr rfl), rfl⟩

theorem buildStep_integrity {db : DB} {station_data : StationData} {db1 : DB}
    (hstep : buildStep db station_data = Except.ok db1)
    (hint : dbIntegrity db) : dbIntegrity db1 := by
  unfold buildStep at hstep
  cases hid : station_data.id with
  | none => rw [hid] at hstep; exact absurd hstep (by simp)
  | some sid =>
    rw [hid, insert_station_some hid] at hstep
    dsimp only at hstep
    split at hstep
    · next heq1 heq2 =>
      unfold insert_harmonics at hstep
      obtain ⟨hst, _, hhc⟩ := insertConstituents_tables _ _ _ _ hstep
      intro h hm
      rcases hhc h hm with hm' | hsid
      · have hm'' : h ∈ db.harmonic_constituents := hm'
        obtain ⟨s, hs, hsi⟩ := hint h hm''
        rw [hst]
        exact upsertStation_id_preserved ⟨s, hs, hsi⟩
      · rw [hst, ← hsid]
        exact upsertStation_row_mem db _
    · next =>
      split at hstep
      · next rid offsets heq3 heq4 =>
        rcases Except.ok.inj hstep with rfl
        intro h hm
        have hm' : h ∈ db.harmonic_constituents := hm
        obtain ⟨s, hs, hsi⟩ := hint h hm'
        exact upsertStation_id_preserved ⟨s, hs, hsi⟩
      · next =>
        rcases Except.ok.inj hstep with rfl
        intro h hm
        obtain ⟨s, hs, hsi⟩ := hint h hm
        exact upsertStation_id_preserved ⟨s, hs, hsi⟩

theorem buildRun_integrity :
    ∀ (stations : List StationData) (db0 db1 : DB),
      buildRun db0 stations = Except.ok db1 →
      dbIntegrity db0 → dbIntegrity db1 := by
  intro stations
  induction stations with
  | nil =>
    intro db0 db1 h hint
    rcases Except.ok.inj h with rfl
    exact hint
  | cons d rest ih =>
    intro db0 db1 h hint
    unfold buildRun at h
    split at h
    · exact absurd h (by simp)
    · next dbm heq => exact ih dbm db1 h (buildStep_integrity heq hint)

/-- C5: after `build_database` has processed any input station list,
every row of the `harmonic_constituents` table has a `stationId` equal to
the id of some row in the `stations` table. -/
theorem C5_referential_integrity :
    ∀ (stations : List StationData) (db : DB),
      build_database stations = Except.ok db →
      ∀ h ∈ db.harmonic_constituents, ∃ s ∈ db.stations, s.id = h.stationId := by
  intro stations db hbuild
  exact buildRun_integrity stations emptyDB db hbuild
    (by intro h hm; simp [emptyDB] at hm)

/-- The one-station example input from the specification. -/
def sfStation : StationData :=
  { id := some "9414290", name := some "SAN FRANCISCO", state := none,
    region := none, lat := some 37.8, lng := some (-122.47),
    type := some "harmonic", timezoneOffset := none, reference_id := none,
    referenceStationId := none, datumOffset := none,
    harmonics := some ⟨some [⟨some "M2", some 1.2, some 45.0⟩], false⟩,
    tidepredoffsets := none }

def sfDB : DB :=
  ⟨[stationRowOf sfStation "9414290"], [⟨"9414290", "M2", 1.2, 45.0⟩], []⟩

theorem C5_referential_integrity_witness :
    (build_database [sfStation] = Except.ok sfDB ∧
      (⟨"9414290", "M2", 1.2, 45.0⟩ : HarmonicRow) ∈ sfDB.harmonic_constituents) ∧
      ∃ s ∈ sfDB.stations, s.id = "9414290" :=
  ⟨⟨rfl, by simp [sfDB]⟩,
    C5_referential_integrity [sfStation] sfDB rfl
      (⟨"9414290", "M2", 1.2, 45.0⟩ : HarmonicRow) (by simp [sfDB])⟩

/-- C8: building the single-station example of the specification yields
exactly one station row, named "San Francisco", and exactly one
harmonic-constituent row, with amplitude 1.2 and phaseLocal 45.0. -/
theorem C8_end_to_end_example :
    (build_database [sfStation]).toOption.map (fun db =>
        (db.stations.map StationRow.name,
          db.harmonic_constituents.map (fun r => (r.amplitude, r.phaseLocal)))) =
      some (["San Francisco"], [((1.2 : ℚ), (45.0 : ℚ))]) := rfl

/-- C10: a record with no `type` field is treated as harmonic by the
builder: the station row's type column is stored as `"harmonic"`, and
when the record carries a `harmonics` object the build step is exactly
the constituent-insertion call, so its constituents are inserted into the
harmonic-constituents table. -/
theorem C10_default_type_harmonic :
    ∀ (db : DB) (station_data : StationData) (sid : String),
      station_data.id = some sid →
      station_data.type = none →
      (stationRowOf station_data sid).type = "harmonic" ∧
      (∀ harmonics, station_data.harmonics = some harmonics →
        buildStep db station_data =
          insert_harmonics (upsertStation db (stationRowOf station_data sid))
            sid harmonics) ∧
      (∀ db1, buildStep db station_data = Except.ok db1 →
        ∃ row ∈ db1.stations, row.id = sid ∧ row.type = "harmonic") := by
  intro db station_data sid hid htype
  have hrowtype : (stationRowOf station_data sid).type = "harmonic" := by
    simp [stationRowOf, htype]
  refine ⟨hrowtype, ?_, ?_⟩
  · intro harmonics hh
    unfold buildStep
    rw [hid, insert_station_some hid]
    dsimp only
    simp only [htype, Option.getD_none, hh, beq_self_eq_true]
  · intro db1 hstep
    unfold buildStep at hstep
    rw [hid, insert_station_some hid] at hstep
    dsimp only at hstep
    split at hstep
    · next heq1 heq2 =>
      unfold insert_harmonics at hstep
      obtain ⟨hst, _, _⟩ := insertConstituents_tables _ _ _ _ hstep
      refine ⟨stationRowOf station_data sid, ?_, rfl, hrowtype⟩
      rw [hst]
      exact List.mem_append_right _ (List.mem_singleton.mpr rfl)
    · next =>
      split at hstep
      · next rid offsets heq3 heq4 =>
        rcases Except.ok.inj hstep with rfl
        exact ⟨stationRowOf station_data sid,
          List.mem_append_right _ (List.mem_singleton.mpr rfl), rfl, hrowtype⟩
      · next =>
        rcases Except.ok.inj hstep with rfl
        exact ⟨stationRowOf station_data sid,
          List.mem_append_right _ (List.mem_singleton.mpr rfl), rfl, hrowtype⟩

theorem C10_default_type_harmonic_witness :
    (upstreamStation.id = some "9414290" ∧ upstreamStation.type = none) ∧
      (stationRowOf upstreamStation "9414290").type = "harmonic" :=
  ⟨⟨rfl, rfl⟩,
    (C10_default_type_harmonic emptyDB upstreamStation "9414290" rfl rfl).1⟩

end Tidewatch
